import Mathlib

/-!
Verification development for the `tagparse` library: a shallow embedding of
its character stream, lexer, synchronous and asynchronous parsers, AST
transformer utilities and the `mergeAdjacentTextNodes` helper, together with
theorems settling the specification claims C1..C10.

Sources embedded (TypeScript): `src/lib/Stream.ts`, `src/lib/Lexer.ts`,
`src/lib/Parser/Parser.ts`, the asynchronous parser (`ParserAsync`),
`src/lib/Transformer.ts`, and the built-in transformers file containing
`mergeAdjacentTextNodes` and `filterByType`.

Modelling conventions:
* JavaScript strings are Lean `String`; code points are `Char` / `Nat`.
* Machine numbers in positions and offsets are `Nat` (they never go negative
  on the executed paths); the stream's `-1` sentinel code point is an `Int`.
* Thrown exceptions become `Except PError`; `TagParseError` and its subtype
  `StrictModeError` are the two constructors carrying the base message and
  the optional position exactly as the constructors receive them.
* Recursive scanning loops are written with an explicit fuel argument
  (structural on `Nat`); `PError.outOfFuel` marks fuel exhaustion, a failure
  mode the JavaScript original does not have.  Concrete evaluations use
  ample fuel and universal theorems either are conditional on a non-error
  result or carry an explicit fuel bound.
-/

namespace Tagparse

/-- Position information carried by tokens and errors (`Errors.ts`). -/
structure Position where
  line : Nat
  column : Nat
  offset : Nat
  deriving DecidableEq, Repr

/-- Token kinds of the lexer (`types.ts`, `TokenType`). -/
inductive TokenType where
  | tagStartT
  | tagEndT
  | colonT
  | pipeT
  | spaceT
  | literalT
  deriving DecidableEq, Repr

/-- A token as produced by the lexer (`types.ts`, `Token`). -/
structure Token where
  type : TokenType
  value : String
  position : Option Position := none
  deriving DecidableEq, Repr

/-- Errors of the library (`Errors.ts`): `tagParse` models `TagParseError`,
`strictMode` its subtype `StrictModeError`.  Both carry the base message and
the optional position handed to the constructor (the rendered `.message`
appends `" at line L, column C"` when a position is present; see
`renderError`).  `outOfFuel` is an artifact of the fueled embedding. -/
inductive PError where
  | tagParse (msg : String) (pos : Option Position)
  | strictMode (msg : String) (pos : Option Position)
  | outOfFuel
  deriving DecidableEq, Repr

/-- Rendered error message (`Errors.ts`, `TagParseError` constructor). -/
def renderError : PError → String
  | .tagParse m (some p) => m ++ " at line " ++ toString p.line ++ ", column " ++ toString p.column
  | .tagParse m none => m
  | .strictMode m (some p) => m ++ " at line " ++ toString p.line ++ ", column " ++ toString p.column
  | .strictMode m none => m
  | .outOfFuel => "out of fuel"

/-- Resolver return values.  The source types them as `unknown`; following the
spec's design note they are modelled as a small closed value type: text,
number, boolean, or an opaque object whose generic string coercion is the
carried `render` field. -/
inductive RVal where
  | str (s : String)
  | num (n : Int)
  | boolv (b : Bool)
  | opaq (render : String)
  deriving DecidableEq, Repr

/-- AST nodes (`types.ts`).  At runtime every node is an object with a type
tag, so argument nodes are one constructor of the same type; the parser only
ever places `argN` values inside a `funcN`'s `args` list.  `value` fields
are `none` when the property is absent or `undefined`. -/
inductive Node where
  | text (value : String)
  | varN (raw : String) (value : Option RVal)
  | funcN (name : String) (args : List Node) (value : Option RVal)
  | argN (nodes : List Node) (finalValue : Option String)
  deriving Repr

/-- The node's `type` discriminant, from `types.ts`: `NodeType` is the
string-constant table `Argument: "Argument", Function: "Function",
Text: "Text", Variable: "Variable"`, and each node interface fixes its
`type` field to the corresponding constant (`TextNode.type =
NodeType.Text`, etc.).  This returns that string tag. -/
def Node.typeName : Node → String
  | .text _ => "Text"
  | .varN _ _ => "Variable"
  | .funcN _ _ _ => "Function"
  | .argN _ _ => "Argument"

/-- Last character of a string, if any (JS `s.at(-1)`). -/
def strLast? (s : String) : Option Char :=
  s.data.getLast?

/-- JS `s.slice(0, -1)`: the string without its last character. -/
def strDropLast (s : String) : String :=
  ⟨s.data.dropLast⟩

/-- JS `s.slice(0, -n)`: the string without its last `n` characters. -/
def strDropLastN (s : String) (n : Nat) : String :=
  ⟨s.data.take (s.data.length - n)⟩

/-- JS `s.endsWith(p)`, written over the code point lists so that it is
kernel-reducible. -/
def strEndsWith (s p : String) : Bool :=
  p.data.isSuffixOf s.data

/-! ## Character stream (`Stream.ts`) -/

/-- The character stream state (`Stream.ts`).  `buffer` holds the not yet
consumed code points; `currentCodePoint` is `-1` when no character is
current. -/
structure Stream where
  buffer : List Int
  currentCodePoint : Int := -1
  line : Nat := 1
  column : Nat := 1
  offset : Nat := 0
  started : Bool := false
  deriving DecidableEq, Repr

/-- `new Stream(str)`: decompose the string into code points. -/
def Stream.ofString (s : String) : Stream :=
  { buffer := s.data.map (fun c => (c.toNat : Int)) }

/-- `Stream.prototype.next()`: advance to the next code point, updating the
position bookkeeping based on the previously current code point.  Returns
the new state and whether a character was consumed. -/
def Stream.next (s : Stream) : Stream × Bool :=
  match s.buffer with
  | [] => ({ s with currentCodePoint := -1 }, false)
  | c :: rest =>
    let s :=
      if s.started ∧ s.currentCodePoint ≠ -1 then
        if s.currentCodePoint = 0x0a then
          { s with offset := s.offset + 1, line := s.line + 1, column := 1 }
        else
          { s with offset := s.offset + 1, column := s.column + 1 }
      else s
    ({ s with started := true, currentCodePoint := c, buffer := rest }, true)

/-- `Stream.prototype.hasMore()`. -/
def Stream.hasMore (s : Stream) : Bool :=
  s.buffer.length ≠ 0

/-- The `length` getter of `Stream.ts`: consumed offset plus remaining buffer
size plus one if a current character is active. -/
def Stream.length (s : Stream) : Nat :=
  s.offset + s.buffer.length + (if s.currentCodePoint = -1 then 0 else 1)

/-- `getPosition()`. -/
def Stream.getPosition (s : Stream) : Position :=
  ⟨s.line, s.column, s.offset⟩

/-- The stream after `k` calls of `next()` (discarding the returned flags). -/
def Stream.advance (s : Stream) : Nat → Stream
  | 0 => s
  | k + 1 => (s.advance k).next.fst

/-! ## Lexer (`Lexer.ts`) -/

/-- Lexer options (`types.ts`, `LexerOptions`); `none` models an absent
property. -/
structure LexerOptions where
  tagStart : Option String := none
  tagEnd : Option String := none

/-- Effective delimiter: `opt?.length ? opt : dflt` from the `Lexer`
constructor — an absent or empty string falls back to the default. -/
def effDelim (opt : Option String) (dflt : String) : String :=
  match opt with
  | some s => if s.length ≠ 0 then s else dflt
  | none => dflt

/-- Position advance of `Stream.next`: the position of the character after
`c` at position `p` (newline resets the column and bumps the line). -/
def nextPos (p : Position) (c : Char) : Position :=
  if c = '\x0a' then ⟨p.line + 1, 1, p.offset + 1⟩
  else ⟨p.line, p.column + 1, p.offset + 1⟩

/-- The lexer's buffer flush (`Lexer.ts`, `flush`): a pending literal buffer
becomes one `Literal` token carrying the buffer's start position. -/
def lexFlush (buffer : String) (bufStart : Option Position) : List Token :=
  if buffer.length ≠ 0 then [⟨.literalT, buffer, bufStart⟩] else []

/-- One step of `handleTagStart` / `handleTagEnd` (`Lexer.ts`): given the
full delimiter `delim`, the current buffer and its start position, and the
position of the just-read final delimiter character, either emit the
delimiter token (flushing what remains of the buffer) or treat the
character as ordinary content.  Returns `(emitted tokens, buffer, bufStart)`
— with no tokens emitted when the character was appended to the buffer. -/
def handleDelim (tt : TokenType) (delim : String) (c : Char) (pos : Position)
    (buffer : String) (bufStart : Option Position) :
    List Token × String × Option Position :=
  if delim.data.length > 1 then
    let leftOut : String := ⟨delim.data.dropLast⟩
    if strEndsWith buffer leftOut then
      let buffer' := strDropLastN buffer leftOut.data.length
      (lexFlush buffer' bufStart ++
        [⟨tt, delim, some ⟨pos.line, pos.column - leftOut.data.length,
           pos.offset - leftOut.data.length⟩⟩], "", none)
    else
      (([] : List Token), buffer.push c,
        if buffer.length = 0 then some pos else bufStart)
  else
    (lexFlush buffer bufStart ++ [⟨tt, delim, some pos⟩], "", none)

/-- The lexer's character loop (`Lexer.ts`, the `Symbol.iterator` body):
consume each code point, dispatching in the source's `switch` order on the
tag-start delimiter's last character, `:`, `|`, the tag-end delimiter's last
character and space, accumulating everything else into the literal buffer.
`pos` is the position of the head character. -/
def lexGo (tagStart tagEnd : String) :
    List Char → Position → String → Option Position → List Token
  | [], _, buffer, bufStart => lexFlush buffer bufStart
  | c :: rest, pos, buffer, bufStart =>
    if tagStart.data.getLast? = some c then
      let (toks, buffer', bufStart') :=
        handleDelim .tagStartT tagStart c pos buffer bufStart
      toks ++ lexGo tagStart tagEnd rest (nextPos pos c) buffer' bufStart'
    else if c = ':' then
      lexFlush buffer bufStart ++ [⟨.colonT, ":", some pos⟩] ++
        lexGo tagStart tagEnd rest (nextPos pos c) "" none
    else if c = '|' then
      lexFlush buffer bufStart ++ [⟨.pipeT, "|", some pos⟩] ++
        lexGo tagStart tagEnd rest (nextPos pos c) "" none
    else if tagEnd.data.getLast? = some c then
      let (toks, buffer', bufStart') :=
        handleDelim .tagEndT tagEnd c pos buffer bufStart
      toks ++ lexGo tagStart tagEnd rest (nextPos pos c) buffer' bufStart'
    else if c = ' ' then
      lexFlush buffer bufStart ++ [⟨.spaceT, " ", some pos⟩] ++
        lexGo tagStart tagEnd rest (nextPos pos c) "" none
    else
      lexGo tagStart tagEnd rest (nextPos pos c) (buffer.push c)
        (if buffer.length = 0 then some pos else bufStart)

/-- Tokenize a whole input (`Lexer` construction plus exhausting its
iterator). -/
def lexTokens (opts : LexerOptions) (input : String) : List Token :=
  lexGo (effDelim opts.tagStart "\x7b") (effDelim opts.tagEnd "\x7d")
    input.data ⟨1, 1, 0⟩ "" none

example :
    lexTokens {} "\x7btag:a|b\x7d" =
      [⟨.tagStartT, "\x7b", some ⟨1, 1, 0⟩⟩,
       ⟨.literalT, "tag", some ⟨1, 2, 1⟩⟩,
       ⟨.colonT, ":", some ⟨1, 5, 4⟩⟩,
       ⟨.literalT, "a", some ⟨1, 6, 5⟩⟩,
       ⟨.pipeT, "|", some ⟨1, 7, 6⟩⟩,
       ⟨.literalT, "b", some ⟨1, 8, 7⟩⟩,
       ⟨.tagEndT, "\x7d", some ⟨1, 9, 8⟩⟩] := by rfl

example :
    lexTokens { tagStart := some "$(", tagEnd := some ")" } "$(tag)" =
      [⟨.tagStartT, "$(", some ⟨1, 1, 0⟩⟩,
       ⟨.literalT, "tag", some ⟨1, 3, 2⟩⟩,
       ⟨.tagEndT, ")", some ⟨1, 6, 5⟩⟩] := by rfl

/-! ## Synchronous parser (`Parser/Parser.ts`) -/

/-- Parser configuration after construction: the fields the `Parser`
instance stores.  The resolver fields mirror the tag parser adapters'
wrapped callbacks (`TagParsers/*.ts`); `none` models an absent callback
and a resolver returning `none` models a callback returning `undefined`. -/
structure PCfg where
  strict : Bool := false
  evaluateTags : Bool := false
  functionParser : Option (String → List Node → Option RVal) := none
  variableParser : Option (String → Option RVal) := none
  lexerOptions : LexerOptions := {}

/-- Constructor options (`types.ts`, `ParserOptions`), with the deprecated
`parseTags` alias. -/
structure ParserOptions where
  functionParser : Option (String → List Node → Option RVal) := none
  variableParser : Option (String → Option RVal) := none
  lexerOptions : Option LexerOptions := none
  parseTags : Option Bool := none
  strict : Option Bool := none
  evaluateTags : Option Bool := none

/-- The `Parser` constructor: `evaluateTags ?? parseTags` coerced to a
boolean, and the missing-resolver validation when evaluation is enabled. -/
def Parser.construct (o : ParserOptions) : Except PError PCfg :=
  let ev := ((o.evaluateTags).orElse (fun _ => o.parseTags)).getD false
  if ev then
    match o.functionParser, o.variableParser with
    | some f, some v =>
      .ok { strict := o.strict.getD false, evaluateTags := true,
            functionParser := some f, variableParser := some v,
            lexerOptions := o.lexerOptions.getD {} }
    | _, _ =>
      .error (.tagParse
        "Function and variable parser functions must be provided when `evaluateTags` is enabled"
        none)
  else
    .ok { strict := o.strict.getD false, evaluateTags := false,
          functionParser := o.functionParser,
          variableParser := o.variableParser,
          lexerOptions := o.lexerOptions.getD {} }

/-- Transient scan state of a parse call: the remaining lexer tokens, the
one-token pushback stack (`this.stack`, pushed/popped at the head), the
end-of-input flag and the last-known position. -/
structure PSt where
  tokens : List Token
  stack : List Token := []
  reachedEof : Bool := false
  currentPosition : Position := ⟨1, 1, 0⟩
  deriving Repr

/-- `Parser.prototype.nextToken`: pop the pushback stack if possible, else
pull from the lexer; on exhaustion set the end-of-input flag and either
throw (strict) or synthesize an empty `Literal` token. -/
def nextToken (strict : Bool) (st : PSt) : Except PError (Token × PSt) :=
  match st.stack with
  | t :: rest => .ok (t, { st with stack := rest })
  | [] =>
    match st.tokens with
    | [] =>
      let st := { st with reachedEof := true }
      if strict then
        .error (.tagParse "Unexpected end of input" (some st.currentPosition))
      else
        .ok (⟨.literalT, "", none⟩, st)
    | t :: rest =>
      .ok (t, { st with
                tokens := rest
                reachedEof := false
                currentPosition := t.position.getD st.currentPosition })

/-- `Parser.prototype.skip`: keep pulling tokens while they have the omitted
type. -/
def skipTok (strict : Bool) (omitType : TokenType) : Nat → PSt → Except PError (Token × PSt)
  | 0, _ => .error .outOfFuel
  | fuel + 1, st => do
    let (t, st) ← nextToken strict st
    if t.type = omitType then skipTok strict omitType fuel st else pure (t, st)

/-- `Parser.prototype.serializeNodesToRaw`: rebuild source text from parsed
nodes using the lexer's delimiters (the `default` switch arm yields `""`). -/
def serializeNodesToRaw (ts te : String) : Nat → List Node → String
  | 0, _ => ""
  | _, [] => ""
  | fuel + 1, n :: rest =>
    (match n with
     | .text v => v
     | .varN raw _ => ts ++ raw ++ te
     | .funcN name args _ =>
       ts ++ name ++ ":" ++
         String.intercalate "|" (args.map (fun a =>
           match a with
           | .argN nodes _ => serializeNodesToRaw ts te fuel nodes
           | _ => "")) ++ te
     | .argN _ _ => "") ++ serializeNodesToRaw ts te fuel rest

/-- The synchronous parser's `finalValue` accumulation
(`parseFunctionArguments`): every child node whose object has a `value`
property contributes `String(value)` when that value is a string, number or
boolean.  A `TextNode`'s `value` property is its text (a string), so text
children always contribute; `value`-less or non-primitive resolver results
contribute nothing. -/
def syncFinalValue (nodes : List Node) : String :=
  nodes.foldl (fun acc n =>
    acc ++ match n with
    | .text v => v
    | .varN _ (some (.str s)) => s
    | .varN _ (some (.num i)) => toString i
    | .varN _ (some (.boolv b)) => cond b "true" "false"
    | .varN _ _ => ""
    | .funcN _ _ (some (.str s)) => s
    | .funcN _ _ (some (.num i)) => toString i
    | .funcN _ _ (some (.boolv b)) => cond b "true" "false"
    | .funcN _ _ _ => ""
    | .argN _ _ => "") ""

/-- Result record of `Parser.prototype.parseArgument`. -/
structure ArgPart where
  arg : Option Node
  raw : String
  endedWithTagEnd : Bool
  endedWithEof : Bool
  deriving Repr

mutual

/-- `Parser.prototype.parseTag`: read the name token and the token after it
(strict-mode checks, or space skipping), then dispatch on the latter:
`TagEnd` (variable / empty tag), `Colon` (function tag) or anything else
(degrade or strict error). -/
def parseTagF (cfg : PCfg) (ts te : String) :
    Nat → PSt → Except PError (Node × PSt)
  | 0, _ => .error .outOfFuel
  | fuel + 1, st => do
    let (nameToken, nextTok, st) ←
      if cfg.strict then do
        let (nameToken, st) ← nextToken true st
        if nameToken.type = .spaceT then
          .error (.strictMode
            "Tags cannot contain spaces. Escape them or disable strict mode."
            nameToken.position)
        else if nameToken.type ≠ .literalT then
          .error (.strictMode
            "Tags must start with a literal character and not be empty."
            nameToken.position)
        else do
          let (nextTok, st) ← nextToken true st
          if nextTok.type = .spaceT then
            .error (.strictMode
              "Tags cannot contain spaces. Escape them or disable strict mode."
              nextTok.position)
          else
            pure (nameToken, nextTok, st)
      else do
        let (nameToken, st) ← skipTok false .spaceT (fuel + 1) st
        let (nextTok, st) ← skipTok false .spaceT (fuel + 1) st
        pure (nameToken, nextTok, st)
    let name := nameToken.value
    match nextTok.type with
    | .tagEndT =>
      if name = "" then
        if cfg.strict then
          .error (.strictMode "Empty tags are not allowed." nextTok.position)
        else
          pure (.text "", st)
      else if cfg.evaluateTags then
        pure (.varN name ((cfg.variableParser.map (fun f => f name)).join), st)
      else
        pure (.varN name none, st)
    | .colonT => do
      let ((args, closed, raw), st) ← parseFnArgsGoF cfg ts te fuel st [] ""
      if ¬closed then
        pure (.text (ts ++ name ++ ":" ++ raw), st)
      else if args.length = 0 ∧ cfg.strict then
        .error (.strictMode "Expected at least one argument for the tag payload."
          nextTok.position)
      else if cfg.evaluateTags then
        pure (.funcN name args
          ((cfg.functionParser.map (fun f => f name args)).join), st)
      else
        pure (.funcN name args none, st)
    | _ =>
      if cfg.strict then
        .error (.strictMode
          "Unexpected token encountered within tag. Escape it or disable strict mode."
          nextTok.position)
      else
        pure (.text (ts ++ name ++ nextTok.value), st)

/-- The `while (true)` loop of `Parser.prototype.parseFunctionArguments`,
with its argument list and raw accumulator, followed by the stack pop when
the scan closed on a `TagEnd`. -/
def parseFnArgsGoF (cfg : PCfg) (ts te : String) :
    Nat → PSt → List Node → String →
    Except PError ((List Node × Bool × String) × PSt)
  | 0, _, _, _ => .error .outOfFuel
  | fuel + 1, st, args, raw => do
    let (part, st) ← parseArgGoF cfg ts te fuel st "" "" []
    let raw := raw ++ part.raw
    let args :=
      match part.arg with
      | some (.argN nodes fv) =>
        if cfg.evaluateTags then
          args ++ [.argN nodes (some (syncFinalValue nodes))]
        else
          args ++ [.argN nodes fv]
      | some other => args ++ [other]
      | none => args
    if part.endedWithTagEnd then
      -- closed: remove the pushed-back TagEnd token from the stack
      pure ((args, true, raw), { st with stack := st.stack.drop 1 })
    else if part.endedWithEof then
      pure ((args, false, raw), st)
    else
      parseFnArgsGoF cfg ts te fuel st args raw

/-- The scanning loop of `Parser.prototype.parseArgument`: pull tokens,
handling backslash escapes before `Pipe`, `TagEnd` and `TagStart`, nested
tags on an unescaped `TagStart` (whose serialized form is appended to
`raw`), and the synthesized empty literal marking end of input. -/
def parseArgGoF (cfg : PCfg) (ts te : String) :
    Nat → PSt → String → String → List Node → Except PError (ArgPart × PSt)
  | 0, _, _, _, _ => .error .outOfFuel
  | fuel + 1, st, buffer, raw, argNodes => do
    let (token, st) ← nextToken cfg.strict st
    let escaped := buffer.length > 0 ∧ strLast? buffer = some '\\'
    match token.type with
    | .pipeT =>
      let raw := raw ++ token.value
      if escaped then
        parseArgGoF cfg ts te fuel st (strDropLast buffer ++ token.value) raw argNodes
      else
        let argNodes := if buffer.length ≠ 0 then argNodes ++ [.text buffer] else argNodes
        pure (⟨if argNodes.length ≠ 0 then some (.argN argNodes none) else none,
               raw, false, false⟩, st)
    | .tagEndT =>
      let raw := raw ++ token.value
      if escaped then
        parseArgGoF cfg ts te fuel st (strDropLast buffer ++ token.value) raw argNodes
      else
        let st := { st with stack := token :: st.stack }
        let argNodes := if buffer.length ≠ 0 then argNodes ++ [.text buffer] else argNodes
        pure (⟨if argNodes.length ≠ 0 then some (.argN argNodes none) else none,
               raw, true, false⟩, st)
    | .tagStartT =>
      if escaped then
        parseArgGoF cfg ts te fuel st (strDropLast buffer ++ token.value)
          (raw ++ token.value) argNodes
      else
        let argNodes := if buffer.length ≠ 0 then argNodes ++ [.text buffer] else argNodes
        let (parsed, st) ← parseTagF cfg ts te fuel st
        parseArgGoF cfg ts te fuel st ""
          (raw ++ serializeNodesToRaw ts te fuel [parsed]) (argNodes ++ [parsed])
    | _ =>
      let buffer := buffer ++ token.value
      let raw := raw ++ token.value
      if token.type = .literalT ∧ token.value = "" ∧ st.reachedEof then
        let argNodes := if buffer.length ≠ 0 then argNodes ++ [.text buffer] else argNodes
        pure (⟨if argNodes.length ≠ 0 then some (.argN argNodes none) else none,
               raw, false, true⟩, st)
      else
        parseArgGoF cfg ts te fuel st buffer raw argNodes

end

/-- `Parser.prototype.pushTextNode`: merge into a trailing text node, else
append a fresh one. -/
def pushTextNode (nodes : List Node) (v : String) : List Node :=
  match nodes.getLast? with
  | some (.text lv) => nodes.dropLast ++ [.text (lv ++ v)]
  | _ => nodes ++ [.text v]

/-- The token loop of `Parser.prototype.parse`: accumulate non-`TagStart`
token values into a text buffer (with the trailing-backslash escape), parse
a tag on each `TagStart`, and flush the trailing buffer at the end.  The
loop pulls directly from the lexer token list, not through the pushback
stack, exactly like the source's `for (const token of this.input)`. -/
def parseTopGo (cfg : PCfg) (ts te : String) :
    Nat → PSt → String → List Node → Except PError (List Node)
  | 0, _, _, _ => .error .outOfFuel
  | fuel + 1, st, buffer, acc =>
    match st.tokens with
    | [] => .ok (if buffer.length ≠ 0 then pushTextNode acc buffer else acc)
    | t :: rest =>
      let st := { st with
                  tokens := rest
                  currentPosition := t.position.getD st.currentPosition }
      if t.type = .tagStartT then
        if buffer.length ≠ 0 ∧ strLast? buffer = some '\\' then
          parseTopGo cfg ts te fuel st (strDropLast buffer ++ t.value) acc
        else
          let acc := if buffer.length ≠ 0 then pushTextNode acc buffer else acc
          match parseTagF cfg ts te fuel st with
          | .error e => .error e
          | .ok (parsedTag, st) =>
            match parsedTag with
            | .text v => parseTopGo cfg ts te fuel st "" (pushTextNode acc v)
            | other => parseTopGo cfg ts te fuel st "" (acc ++ [other])
      else
        parseTopGo cfg ts te fuel st (buffer ++ t.value) acc

/-- Fuel budget used by `Parser.parse`: generously quadratic in the token
count, enough for every loop iteration and nested call of one parse. -/
def parseFuel (tokenCount : Nat) : Nat :=
  (tokenCount + 4) * (tokenCount + 4)

/-- `Parser.prototype.parse`: reset the transient state, tokenize the input
with the configured delimiters and run the token loop. -/
def Parser.parse (cfg : PCfg) (input : String) : Except PError (List Node) :=
  let ts := effDelim cfg.lexerOptions.tagStart "\x7b"
  let te := effDelim cfg.lexerOptions.tagEnd "\x7d"
  let tokens := lexTokens cfg.lexerOptions input
  parseTopGo cfg ts te (parseFuel tokens.length)
    { tokens := tokens } "" []

example : Parser.parse {} "\x7btag\x7d" = .ok [.varN "tag" none] := by rfl

example : Parser.parse {} "Hello, \x7btag" = .ok [.text "Hello, \x7btag"] := by rfl

example :
    Parser.parse {} "\x7bfunc:a\\|b\x7d" =
      .ok [.funcN "func" [.argN [.text "a|b"] none] none] := by rfl

example :
    Parser.parse {} "Text \x7b spaced tag \x7d" =
      .ok [.text "Text \x7bspacedtag \x7d"] := by rfl

example :
    Parser.parse { strict := true } "\x7bspaced tag\x7d" =
      .error (.strictMode
        "Tags cannot contain spaces. Escape them or disable strict mode."
        (some ⟨1, 8, 7⟩)) := by rfl

example :
    Parser.parse { strict := true } "\x7btag:\x7d" =
      .error (.strictMode "Expected at least one argument for the tag payload."
        (some ⟨1, 5, 4⟩)) := by rfl

/-! ## Asynchronous parser (`ParserAsync`)

The asynchronous parser mirrors the synchronous one; awaiting a resolver is
modelled as a plain call (resolutions are sequential, so the pure embedding
is the same).  Its constructor substitutes default resolvers, its
`finalValue` uses the looser generic string coercion
(`resolveNodesToString`), and its `parseArgument` handles `raw` differently
on a `TagStart` token: the token's own value is appended before the escape
check, and the nested tag's serialized form is never appended. -/

/-- `ParserAsync` configuration after construction: resolvers are total
because the constructor substitutes the default no-op resolvers (`async ()
=> ""` and `async (name) => name`) for missing ones. -/
structure APCfg where
  strict : Bool := false
  evaluateTags : Bool := false
  functionParser : String → List Node → Option RVal := fun _ _ => some (.str "")
  variableParser : String → Option RVal := fun name => some (.str name)
  lexerOptions : LexerOptions := {}

/-- `ParserAsync.prototype.resolveNodesToString`: every child node whose
object has a `value` property contributes `String(value ?? "")`, using the
generic string coercion on any value (a `TextNode`'s `value` property is its
text). -/
def resolveNodesToString (nodes : List Node) : String :=
  nodes.foldl (fun acc n =>
    acc ++ match n with
    | .text v => v
    | .varN _ (some (.str s)) => s
    | .varN _ (some (.num i)) => toString i
    | .varN _ (some (.boolv b)) => cond b "true" "false"
    | .varN _ (some (.opaq r)) => r
    | .varN _ none => ""
    | .funcN _ _ (some (.str s)) => s
    | .funcN _ _ (some (.num i)) => toString i
    | .funcN _ _ (some (.boolv b)) => cond b "true" "false"
    | .funcN _ _ (some (.opaq r)) => r
    | .funcN _ _ none => ""
    | .argN _ _ => "") ""

mutual

/-- `ParserAsync.prototype.parseTag` (same dispatch as the synchronous
parser; resolver results are attached directly). -/
def aParseTagF (cfg : APCfg) (ts te : String) :
    Nat → PSt → Except PError (Node × PSt)
  | 0, _ => .error .outOfFuel
  | fuel + 1, st => do
    let (nameToken, nextTok, st) ←
      if cfg.strict then do
        let (nameToken, st) ← nextToken true st
        if nameToken.type = .spaceT then
          .error (.strictMode
            "Tags cannot contain spaces. Escape them or disable strict mode."
            nameToken.position)
        else if nameToken.type ≠ .literalT then
          .error (.strictMode
            "Tags must start with a literal character and not be empty."
            nameToken.position)
        else do
          let (nextTok, st) ← nextToken true st
          if nextTok.type = .spaceT then
            .error (.strictMode
              "Tags cannot contain spaces. Escape them or disable strict mode."
              nextTok.position)
          else
            pure (nameToken, nextTok, st)
      else do
        let (nameToken, st) ← skipTok false .spaceT (fuel + 1) st
        let (nextTok, st) ← skipTok false .spaceT (fuel + 1) st
        pure (nameToken, nextTok, st)
    let name := nameToken.value
    match nextTok.type with
    | .tagEndT =>
      if name = "" then
        if cfg.strict then
          .error (.strictMode "Empty tags are not allowed." nextTok.position)
        else
          pure (.text "", st)
      else if cfg.evaluateTags then
        pure (.varN name (cfg.variableParser name), st)
      else
        pure (.varN name none, st)
    | .colonT => do
      let ((args, closed, raw), st) ← aParseFnArgsGoF cfg ts te fuel st [] ""
      if ¬closed then
        pure (.text (ts ++ name ++ ":" ++ raw), st)
      else if args.length = 0 ∧ cfg.strict then
        .error (.strictMode "Expected at least one argument for the tag payload."
          nextTok.position)
      else if cfg.evaluateTags then
        pure (.funcN name args (cfg.functionParser name args), st)
      else
        pure (.funcN name args none, st)
    | _ =>
      if cfg.strict then
        .error (.strictMode
          "Unexpected token encountered within tag. Escape it or disable strict mode."
          nextTok.position)
      else
        pure (.text (ts ++ name ++ nextTok.value), st)

/-- `ParserAsync.prototype.parseFunctionArguments` loop, with the awaited
`resolveNodesToString` for `finalValue`. -/
def aParseFnArgsGoF (cfg : APCfg) (ts te : String) :
    Nat → PSt → List Node → String →
    Except PError ((List Node × Bool × String) × PSt)
  | 0, _, _, _ => .error .outOfFuel
  | fuel + 1, st, args, raw => do
    let (part, st) ← aParseArgGoF cfg ts te fuel st "" "" []
    let raw := raw ++ part.raw
    let args :=
      match part.arg with
      | some (.argN nodes fv) =>
        if cfg.evaluateTags then
          args ++ [.argN nodes (some (resolveNodesToString nodes))]
        else
          args ++ [.argN nodes fv]
      | some other => args ++ [other]
      | none => args
    if part.endedWithTagEnd then
      pure ((args, true, raw), { st with stack := st.stack.drop 1 })
    else if part.endedWithEof then
      pure ((args, false, raw), st)
    else
      aParseFnArgsGoF cfg ts te fuel st args raw

/-- `ParserAsync.prototype.parseArgument` loop.  Unlike the synchronous
parser it appends the `TagStart` token's value to `raw` before the escape
check and never appends the nested tag's serialized form. -/
def aParseArgGoF (cfg : APCfg) (ts te : String) :
    Nat → PSt → String → String → List Node → Except PError (ArgPart × PSt)
  | 0, _, _, _, _ => .error .outOfFuel
  | fuel + 1, st, buffer, raw, argNodes => do
    let (token, st) ← nextToken cfg.strict st
    let escaped := buffer.length > 0 ∧ strLast? buffer = some '\\'
    match token.type with
    | .pipeT =>
      let raw := raw ++ token.value
      if escaped then
        aParseArgGoF cfg ts te fuel st (strDropLast buffer ++ token.value) raw argNodes
      else
        let argNodes := if buffer.length ≠ 0 then argNodes ++ [.text buffer] else argNodes
        pure (⟨if argNodes.length ≠ 0 then some (.argN argNodes none) else none,
               raw, false, false⟩, st)
    | .tagEndT =>
      let raw := raw ++ token.value
      if escaped then
        aParseArgGoF cfg ts te fuel st (strDropLast buffer ++ token.value) raw argNodes
      else
        let st := { st with stack := token :: st.stack }
        let argNodes := if buffer.length ≠ 0 then argNodes ++ [.text buffer] else argNodes
        pure (⟨if argNodes.length ≠ 0 then some (.argN argNodes none) else none,
               raw, true, false⟩, st)
    | .tagStartT =>
      let raw := raw ++ token.value
      if escaped then
        aParseArgGoF cfg ts te fuel st (strDropLast buffer ++ token.value) raw argNodes
      else
        let argNodes := if buffer.length ≠ 0 then argNodes ++ [.text buffer] else argNodes
        let (parsed, st) ← aParseTagF cfg ts te fuel st
        aParseArgGoF cfg ts te fuel st "" raw (argNodes ++ [parsed])
    | _ =>
      let buffer := buffer ++ token.value
      let raw := raw ++ token.value
      if token.type = .literalT ∧ token.value = "" ∧ st.reachedEof then
        let argNodes := if buffer.length ≠ 0 then argNodes ++ [.text buffer] else argNodes
        pure (⟨if argNodes.length ≠ 0 then some (.argN argNodes none) else none,
               raw, false, true⟩, st)
      else
        aParseArgGoF cfg ts te fuel st buffer raw argNodes

end

/-- The token loop of `ParserAsync.prototype.parseAsync` (same shape as the
synchronous loop). -/
def aParseTopGo (cfg : APCfg) (ts te : String) :
    Nat → PSt → String → List Node → Except PError (List Node)
  | 0, _, _, _ => .error .outOfFuel
  | fuel + 1, st, buffer, acc =>
    match st.tokens with
    | [] => .ok (if buffer.length ≠ 0 then pushTextNode acc buffer else acc)
    | t :: rest =>
      let st := { st with
                  tokens := rest
                  currentPosition := t.position.getD st.currentPosition }
      if t.type = .tagStartT then
        if buffer.length ≠ 0 ∧ strLast? buffer = some '\\' then
          aParseTopGo cfg ts te fuel st (strDropLast buffer ++ t.value) acc
        else
          let acc := if buffer.length ≠ 0 then pushTextNode acc buffer else acc
          match aParseTagF cfg ts te fuel st with
          | .error e => .error e
          | .ok (parsedTag, st) =>
            match parsedTag with
            | .text v => aParseTopGo cfg ts te fuel st "" (pushTextNode acc v)
            | other => aParseTopGo cfg ts te fuel st "" (acc ++ [other])
      else
        aParseTopGo cfg ts te fuel st (buffer ++ t.value) acc

/-- `ParserAsync.prototype.parseAsync`: the resolved value of the returned
promise (rejections are the `Except.error` case). -/
def ParserAsync.parseAsync (cfg : APCfg) (input : String) : Except PError (List Node) :=
  let ts := effDelim cfg.lexerOptions.tagStart "\x7b"
  let te := effDelim cfg.lexerOptions.tagEnd "\x7d"
  let tokens := lexTokens cfg.lexerOptions input
  aParseTopGo cfg ts te (parseFuel tokens.length)
    { tokens := tokens } "" []

example :
    ParserAsync.parseAsync { evaluateTags := true } "Hello \x7buser\x7d" =
      .ok [.text "Hello ", .varN "user" (some (.str "user"))] := by rfl

/-! ## AST transformer framework (`Transformer.ts`) -/

/-- Context provided to transformers (`Transformer.ts`, `TransformContext`). -/
structure TransformContext where
  ancestors : List Node
  depth : Nat
  index : Nat
  parent : Option Node
  deriving Repr

/-- Result of one `transform` call: the node (possibly replaced), a node
list, or `removed` (`null` in the source). -/
inductive TransformResult where
  | one (n : Node)
  | many (l : List Node)
  | removed
  deriving Repr

/-- A transformer: a named unit with a per-node rewrite function. -/
structure Transformer where
  name : String
  transform : Node → TransformContext → TransformResult

mutual

/-- `transformNodes` (`Transformer.ts`): walk one node list, transforming
each node's children first, then offering the rebuilt node to the
transformer, flattening the per-node results.  `idx` is the running index in
the current list. -/
def transformNodesF (tr : Transformer) :
    Nat → List Node → List Node → Nat → Nat → List Node
  | 0, nodes, _, _, _ => nodes
  | _ + 1, [], _, _, _ => []
  | fuel + 1, node :: rest, ancestors, depth, idx =>
    let ctx : TransformContext :=
      { ancestors := ancestors, depth := depth, index := idx,
        parent := ancestors.getLast? }
    let transformedNode := transformChildrenF tr fuel node ancestors depth
    (match tr.transform transformedNode ctx with
     | .removed => []
     | .many l => l
     | .one n => [n]) ++ transformNodesF tr fuel rest ancestors depth (idx + 1)

/-- `transformChildren` (`Transformer.ts`): a function node's argument lists
and an argument node's own list are transformed recursively and the node is
rebuilt (shallow copies); the argument wrappers inside a function's `args`
are rebuilt but never themselves offered to the transformer.  Text and
variable nodes are returned unchanged. -/
def transformChildrenF (tr : Transformer) :
    Nat → Node → List Node → Nat → Node
  | 0, node, _, _ => node
  | fuel + 1, node, ancestors, depth =>
    match node with
    | .funcN name args value =>
      .funcN name
        (args.map (fun arg =>
          match arg with
          | .argN nodes fv =>
            .argN (transformNodesF tr fuel nodes
              (ancestors ++ [.funcN name args value]) (depth + 1) 0) fv
          | other => other)) value
    | .argN nodes fv =>
      .argN (transformNodesF tr fuel nodes
        (ancestors ++ [.argN nodes fv]) (depth + 1) 0) fv
    | other => other

end

/-- `transform(nodes, transformers)` (`Transformer.ts`): fold the
transformers over the node list; each stage sees the previous stage's full
output.  The source has no fuel; here any `fuel` exceeding the stage
inputs' sizes gives the faithful (fuel-independent) result. -/
def transform (fuel : Nat) (nodes : List Node) (transformers : List Transformer) :
    List Node :=
  transformers.foldl (fun result tr => transformNodesF tr fuel result [] 0 0) nodes

/-- `createTransformer` (`Transformer.ts`). -/
def createTransformer (name : String)
    (fn : Node → TransformContext → TransformResult) : Transformer :=
  { name := name, transform := fn }

/-- `filterByType(...types)` (built-in transformers): keep only nodes whose
type tag is in the given set. -/
def filterByType (types : List String) : Transformer :=
  createTransformer "filterByType" (fun node _ =>
    if types.contains node.typeName then .one node else .removed)

/-! ## `mergeAdjacentTextNodes` (built-in transformers file)

The helper mutates its input objects, so it is embedded against an explicit
heap: the input list is read as a heap of node objects addressed by their
input position, and the result array of object references is a list of
those addresses.  `lastNode.value += node.value` becomes a `List.set` on the
address held by the result's last reference. -/

/-- Whether a node is a `TextNode`. -/
def isTextNode : Node → Bool
  | .text _ => true
  | _ => false

/-- One iteration of the `mergeAdjacentTextNodes` loop, processing the node
object at heap address `i`: if both it and the object referenced by the
result's last entry are text nodes, concatenate in place at that address;
otherwise push the reference `i`. -/
def mergeStep (st : List Node × List Nat) (i : Nat) : List Node × List Nat :=
  let heap := st.1
  let res := st.2
  match res.getLast? with
  | some j =>
    match heap.getD i (.text ""), heap.getD j (.text "") with
    | .text v, .text lv => (heap.set j (.text (lv ++ v)), res)
    | _, _ => (heap, res ++ [i])
  | none => (heap, res ++ [i])

/-- `mergeAdjacentTextNodes(nodes)`: fold the loop over the input positions.
Returns the final heap together with the returned list of references. -/
def mergeAdjacentTextNodes (nodes : List Node) : List Node × List Nat :=
  (List.range nodes.length).foldl mergeStep (nodes, [])

/-- The node values the returned array holds (dereferencing the result's
references in the final heap). -/
def mergeResultNodes (nodes : List Node) : List Node :=
  ((mergeAdjacentTextNodes nodes).2).map
    (fun i => (mergeAdjacentTextNodes nodes).1.getD i (.text ""))

example :
    mergeAdjacentTextNodes [.text "a", .text "b", .varN "x" none, .text "c"] =
      ([.text "ab", .text "b", .varN "x" none, .text "c"], [0, 2, 3]) := by rfl

example :
    mergeResultNodes [.text "a", .text "b", .varN "x" none, .text "c"] =
      [.text "ab", .varN "x" none, .text "c"] := by rfl

/-! ## Claim C4: the `length` getter over the stream's lifetime -/

/-- The initial stream over a raw code point buffer. -/
def mkStream (l : List Int) : Stream :=
  { buffer := l }

theorem ofString_eq_mkStream (s : String) :
    Stream.ofString s = mkStream (s.data.map (fun c => (c.toNat : Int))) := rfl

/-- State after `k` successful advances, `1 ≤ k ≤ n`: the first `k` code
points are consumed, the `k`-th is current, and the offset credits only the
first `k - 1`. -/
theorem mkStream_advance_state (l : List Int) (hl : ∀ x ∈ l, 0 ≤ x) :
    ∀ k, 1 ≤ k → k ≤ l.length →
      ∃ li co, (mkStream l).advance k =
        { buffer := l.drop k
          currentCodePoint := l[k - 1]?.getD (-1)
          line := li
          column := co
          offset := k - 1
          started := true } := by
  intro k
  induction k with
  | zero => intro h; omega
  | succ k ih =>
    intro _ hk1
    cases k with
    | zero =>
      cases l with
      | nil => simp at hk1
      | cons c rest =>
        exact ⟨1, 1, by simp [Stream.advance, mkStream, Stream.next]⟩
    | succ k =>
      obtain ⟨li, co, hst⟩ := ih (by omega) (by omega)
      have hlt : k + 1 < l.length := by omega
      have hsome : l[k + 1]? = some l[k + 1] := List.getElem?_eq_getElem hlt
      have hdrop : l.drop (k + 1) = l[k + 1]?.getD (-1) :: l.drop (k + 2) := by
        rw [hsome, Option.getD_some]
        exact List.drop_eq_getElem_cons hlt
      have hsome' : l[k]? = some l[k] := List.getElem?_eq_getElem (by omega)
      have hcur : (0 : Int) ≤ l[k]?.getD (-1) := by
        rw [hsome', Option.getD_some]
        exact hl _ (List.getElem_mem _)
      have hne : l[k]?.getD (-1) ≠ -1 := by omega
      show ∃ li co, ((mkStream l).advance (k + 1)).next.fst = _
      rw [hst]
      by_cases hnl : l[k]?.getD (-1) = 0x0a
      · refine ⟨li + 1, 1, ?_⟩
        simp [Stream.next, hdrop, hne, hnl]
      · refine ⟨li, co + 1, ?_⟩
        simp [Stream.next, hdrop, hne, hnl]

/-- The empty stream is a fixed point of `next`. -/
theorem mkStream_nil_advance : ∀ j, (mkStream ([] : List Int)).advance j = mkStream [] := by
  intro j
  induction j with
  | zero => rfl
  | succ j ih =>
    show ((mkStream []).advance j).next.fst = _
    rw [ih]
    rfl

/-- After the failed advance at exhaustion the buffer and current character
are gone but the offset still credits only `n - 1` characters. -/
theorem mkStream_advance_exhausted (l : List Int) (hl : ∀ x ∈ l, 0 ≤ x)
    (hn : 1 ≤ l.length) :
    ∀ j, ∃ li co, (mkStream l).advance (l.length + 1 + j) =
      { buffer := []
        currentCodePoint := -1
        line := li
        column := co
        offset := l.length - 1
        started := true } := by
  intro j
  induction j with
  | zero =>
    obtain ⟨li, co, hst⟩ := mkStream_advance_state l hl l.length hn le_rfl
    refine ⟨li, co, ?_⟩
    show ((mkStream l).advance l.length).next.fst = _
    rw [hst]
    simp [Stream.next]
  | succ j ih =>
    obtain ⟨li, co, hst⟩ := ih
    refine ⟨li, co, ?_⟩
    have harith : l.length + 1 + (j + 1) = (l.length + 1 + j) + 1 := by omega
    rw [harith]
    show ((mkStream l).advance (l.length + 1 + j)).next.fst = _
    rw [hst]
    rfl

/-- `length` stays the code point count through the last successful advance. -/
theorem mkStream_length_le (l : List Int) (hl : ∀ x ∈ l, 0 ≤ x)
    (k : Nat) (hk : k ≤ l.length) :
    ((mkStream l).advance k).length = l.length := by
  cases k with
  | zero => simp [Stream.advance, mkStream, Stream.length]
  | succ k =>
    obtain ⟨li, co, hst⟩ :=
      mkStream_advance_state l hl (k + 1) (by omega) hk
    rw [hst]
    have hsome : l[k]? = some l[k] := List.getElem?_eq_getElem (by omega)
    have hcur : (0 : Int) ≤ l[k]?.getD (-1) := by
      rw [hsome, Option.getD_some]
      exact hl _ (List.getElem_mem _)
    have hne : l[k]?.getD (-1) ≠ -1 := by omega
    simp [Stream.length, hne]
    omega

/-- `next` succeeds exactly on the first `l.length` advances. -/
theorem mkStream_next_snd (l : List Int) (hl : ∀ x ∈ l, 0 ≤ x) (k : Nat) :
    ((mkStream l).advance k).next.snd = true ↔ k < l.length := by
  rcases Nat.lt_or_ge k 1 with hk0 | hk1
  · interval_cases k
    cases l with
    | nil => simp [Stream.advance, mkStream, Stream.next]
    | cons c rest => simp [Stream.advance, mkStream, Stream.next]
  · rcases Nat.lt_or_ge k (l.length + 1) with hkn | hkbig
    · obtain ⟨li, co, hst⟩ := mkStream_advance_state l hl k hk1 (by omega)
      rw [hst]
      rcases Nat.lt_or_ge k l.length with hlt | hge
      · have : l.drop k ≠ [] := by
          intro h
          have := congrArg List.length h
          simp at this
          omega
        cases hd : l.drop k with
        | nil => exact absurd hd this
        | cons c rest => simp [Stream.next, hd, hlt]
      · have hk : k = l.length := by omega
        subst hk
        simp [Stream.next, List.drop_length]
    · rcases Nat.eq_zero_or_pos l.length with h0 | h1
      case inl =>
        have hl0 : l = [] := List.length_eq_zero.mp h0
        subst hl0
        rw [mkStream_nil_advance k]
        simp [mkStream, Stream.next]
      obtain ⟨li, co, hst⟩ :=
        mkStream_advance_exhausted l hl h1 (k - (l.length + 1))
      have harith : l.length + 1 + (k - (l.length + 1)) = k := by omega
      rw [harith] at hst
      rw [hst]
      simp [Stream.next]
      omega

/-- Helper: code point buffers built from strings hold no negative values. -/
theorem strCodePoints_nonneg (s : String) :
    ∀ x ∈ s.data.map (fun c => (c.toNat : Int)), 0 ≤ x := by
  intro x hx
  simp only [List.mem_map] at hx
  obtain ⟨c, _, rfl⟩ := hx
  exact Int.ofNat_nonneg _

/-- Claim C4, counterexample: after `next()` has returned `false` at
exhaustion, the stream built over `"🧪a"` reports `length = 1`, not the
claimed total code point count 2 — the failed advance wipes the current
code point without crediting the last consumed character to the offset. -/
theorem c4_counterexample :
    ((Stream.ofString "🧪a").advance 3).length = 1 ∧
      ¬ ((Stream.ofString "🧪a").advance 3).length = 2 := by
  exact ⟨by rfl, by decide⟩

/-- Claim C4, amended: the `length` getter equals the total code point
count of the original input before the first advance and after every
successful advance, and `next()` succeeds exactly `n` times (twice for
`"🧪a"`); but after `next()` has returned `false` at exhaustion the getter
drops to `n - 1`, because the sentinel overwrites the current code point
while the offset never credited the last consumed character. -/
theorem c4_theorem (s : String) :
    (∀ k, k ≤ s.data.length →
      ((Stream.ofString s).advance k).length = s.data.length) ∧
    (∀ k, (((Stream.ofString s).advance k).next.snd = true) ↔ k < s.data.length) ∧
    ((Stream.ofString s).advance (s.data.length + 1)).length = s.data.length - 1 := by
  have hl := strCodePoints_nonneg s
  have hlen : (s.data.map (fun c => (c.toNat : Int))).length = s.data.length :=
    List.length_map _ _
  refine ⟨?_, ?_, ?_⟩
  · intro k hk
    rw [ofString_eq_mkStream]
    rw [mkStream_length_le _ hl k (by omega)]
    exact hlen
  · intro k
    rw [ofString_eq_mkStream, mkStream_next_snd _ hl k, hlen]
  · rw [ofString_eq_mkStream]
    rcases Nat.eq_zero_or_pos s.data.length with h0 | h1
    · have hnil : s.data.map (fun c => (c.toNat : Int)) = [] := by
        rw [← List.length_eq_zero, hlen]
        exact h0
      rw [hnil, h0, mkStream_nil_advance]
      rfl
    · obtain ⟨li, co, hst⟩ :=
        mkStream_advance_exhausted _ hl (by omega) 0
      rw [hlen] at hst
      rw [hst]
      simp [Stream.length]

/-- Witness for `c4_theorem` at the claim's own input `"🧪a"`: before any
advance and after each of the two successful advances the length is 2, and
the second advance is the last successful one. -/
theorem c4_theorem_witness :
    ((Stream.ofString "🧪a").advance 0).length = 2 ∧
    ((Stream.ofString "🧪a").advance 2).length = 2 ∧
    (((Stream.ofString "🧪a").advance 1).next.snd = true) ∧
    ¬ (((Stream.ofString "🧪a").advance 2).next.snd = true) := by
  refine ⟨( c4_theorem "🧪a").1 0 (by decide), ( c4_theorem "🧪a").1 2 (by decide),
    (( c4_theorem "🧪a").2.1 1).mpr (by decide), fun h => ?_⟩
  have := (( c4_theorem "🧪a").2.1 2).mp h
  exact absurd this (by decide)

/-! ## Claims C8, C3, C1, C2: concrete parser behaviours -/

/-- Claim C8: `Parser({strict:true}).parse("{}")` raises a `StrictModeError`
whose message is the literal-start error `"Tags must start with a literal
character and not be empty."` (at line 1, column 2, the position of the
`TagEnd` token read as the name token) — not the `"Empty tags are not
allowed."` error. -/
theorem c8_theorem :
    Parser.parse { strict := true } "\x7b\x7d" =
      .error (.strictMode
        "Tags must start with a literal character and not be empty."
        (some ⟨1, 2, 1⟩)) ∧
    "Tags must start with a literal character and not be empty." ≠
      "Empty tags are not allowed." := by
  exact ⟨by rfl, by decide⟩

/-- Claim C3, counterexample: non-strict `Parser().parse("{}")` does not
yield an empty-string Text node.  (The name token is the `TagEnd` token
itself and the next token is the synthesized end-of-input literal, so the
tag degrades through the unexpected-token branch to `"{" + "}" + ""`.) -/
theorem c3_counterexample :
    Parser.parse {} "\x7b\x7d" ≠ .ok [.text ""] := by
  have h : Parser.parse {} "\x7b\x7d" = .ok [.text "\x7b\x7d"] := by rfl
  rw [h]
  simp

/-- Claim C3, amended: non-strict `Parser().parse("{}")` yields a single
Text node whose value is the literal `"{}"` — the delimiters are reproduced
in the output, not deleted.  (The repository's own test suite expects
exactly this.) -/
theorem c3_theorem :
    Parser.parse {} "\x7b\x7d" = .ok [.text "\x7b\x7d"] := by rfl

/-- Claim C1, counterexample: in strict mode an unterminated function tag
does not degrade to text — running out of tokens inside the argument scan
raises `TagParseError "Unexpected end of input"` (annotated with the last
known position), exactly as the repository's strict-mode tests expect. -/
theorem c1_counterexample :
    Parser.parse { strict := true } "\x7btag:arg1|arg2" =
      .error (.tagParse "Unexpected end of input" (some ⟨1, 11, 10⟩)) ∧
    Parser.parse { strict := true } "\x7btag:arg1|arg2" ≠
      .ok [.text "\x7btag:arg1|arg2"] := by
  refine ⟨by rfl, ?_⟩
  have h : Parser.parse { strict := true } "\x7btag:arg1|arg2" =
      .error (.tagParse "Unexpected end of input" (some ⟨1, 11, 10⟩)) := by rfl
  rw [h]
  simp

/-- Claim C1, amended: an unterminated function-tag argument scan degrades
the whole tag to one literal Text node only in non-strict mode —
`Parser().parse("{tag:arg1|arg2")` returns `[{Text, "{tag:arg1|arg2"}]` —
while in strict mode the token exhaustion inside the scan raises
`TagParseError "Unexpected end of input"`. -/
theorem c1_theorem :
    Parser.parse {} "\x7btag:arg1|arg2" = .ok [.text "\x7btag:arg1|arg2"] ∧
    Parser.parse { strict := true } "\x7btag:arg1|arg2" =
      .error (.tagParse "Unexpected end of input" (some ⟨1, 11, 10⟩)) := by
  exact ⟨by rfl, by rfl⟩

/-- Claim C2: with evaluation disabled and identical options, the two
parsers disagree on an unterminated function tag whose argument contains a
nested tag.  The synchronous parser appends the nested tag's serialized
form to the degraded raw text (`serializeNodesToRaw`), the asynchronous one
appends only the `TagStart` token's own value, so `"{f:{user}"` degrades to
`"{f:{user}"` synchronously but to `"{f:{"` asynchronously — contradicting
the asynchronous parser's documented behaviour equivalence. -/
theorem c2_theorem :
    Parser.parse {} "\x7bf:\x7buser\x7d" = .ok [.text "\x7bf:\x7buser\x7d"] ∧
    ParserAsync.parseAsync {} "\x7bf:\x7buser\x7d" = .ok [.text "\x7bf:\x7b"] ∧
    Parser.parse {} "\x7bf:\x7buser\x7d" ≠
      ParserAsync.parseAsync {} "\x7bf:\x7buser\x7d" := by
  refine ⟨by rfl, by rfl, ?_⟩
  have h1 : Parser.parse {} "\x7bf:\x7buser\x7d" =
      .ok [.text "\x7bf:\x7buser\x7d"] := by rfl
  have h2 : ParserAsync.parseAsync {} "\x7bf:\x7buser\x7d" =
      .ok [.text "\x7bf:\x7b"] := by rfl
  rw [h1, h2]
  simp

/-! ## Claim C9: the empty input -/

/-- Claim C9: for every parser configuration (strict or not, evaluation
enabled or not, any delimiters), `parse("")` returns the empty node list —
the lexer emits zero tokens, so the top-level loop never runs, no Text node
is created and no error is raised. -/
theorem c9_theorem (cfg : PCfg) : Parser.parse cfg "" = .ok [] := rfl

/-! ## Claim C5: the plain-text identity law -/

/-- Concatenated code points of a token list's values. -/
def tokenValueChars (toks : List Token) : List Char :=
  (toks.map (fun t => t.value.data)).flatten

theorem tokenValueChars_nil : tokenValueChars [] = [] := rfl

theorem tokenValueChars_cons (t : Token) (ts : List Token) :
    tokenValueChars (t :: ts) = t.value.data ++ tokenValueChars ts := rfl

theorem tokenValueChars_append (a b : List Token) :
    tokenValueChars (a ++ b) = tokenValueChars a ++ tokenValueChars b := by
  simp [tokenValueChars]

theorem strData_eq_nil (buffer : String) (hb : ¬ buffer.length ≠ 0) :
    buffer.data = [] := by
  have h0 : buffer.length = 0 := by omega
  have : buffer.data.length = 0 := h0
  exact List.length_eq_zero.mp this

theorem lexFlush_type {t : Token} {buffer : String} {bufStart : Option Position}
    (ht : t ∈ lexFlush buffer bufStart) : t.type = .literalT := by
  unfold lexFlush at ht
  by_cases hb : buffer.length ≠ 0
  · rw [if_pos hb] at ht
    simp at ht
    subst ht
    rfl
  · rw [if_neg hb] at ht
    simp at ht

theorem tokenValueChars_lexFlush (buffer : String) (bufStart : Option Position) :
    tokenValueChars (lexFlush buffer bufStart) = buffer.data := by
  unfold lexFlush
  by_cases hb : buffer.length ≠ 0
  · rw [if_pos hb]
    simp [tokenValueChars]
  · rw [if_neg hb]
    rw [strData_eq_nil buffer hb]
    rfl

/-- On input containing neither default delimiter character, the lexer
emits no `TagStart` token and its token values concatenate to the pending
buffer followed by the remaining input. -/
theorem lexGo_plain (chars : List Char)
    (hc : ∀ c ∈ chars, c ≠ '\x7b' ∧ c ≠ '\x7d') :
    ∀ (pos : Position) (buffer : String) (bufStart : Option Position),
      (∀ t ∈ lexGo "\x7b" "\x7d" chars pos buffer bufStart,
        t.type ≠ .tagStartT) ∧
      tokenValueChars (lexGo "\x7b" "\x7d" chars pos buffer bufStart) =
        buffer.data ++ chars := by
  induction chars with
  | nil =>
    intro pos buffer bufStart
    refine ⟨fun t ht => ?_, ?_⟩
    · rw [lexFlush_type (t := t) ht]
      simp
    · show tokenValueChars (lexFlush buffer bufStart) = buffer.data ++ []
      rw [tokenValueChars_lexFlush]
      simp
  | cons c rest ih =>
    intro pos buffer bufStart
    obtain ⟨hc1, hc2⟩ := hc c (List.mem_cons_self c rest)
    have hcs : ∀ x ∈ rest, x ≠ '\x7b' ∧ x ≠ '\x7d' := fun x hx =>
      hc x (List.mem_cons_of_mem c hx)
    have hts : ¬ (("\x7b" : String).data.getLast? = some c) := by
      intro h
      have : '\x7b' = c := by simpa using h
      exact hc1 this.symm
    have hte : ¬ (("\x7d" : String).data.getLast? = some c) := by
      intro h
      have : '\x7d' = c := by simpa using h
      exact hc2 this.symm
    simp only [lexGo]
    rw [if_neg hts]
    by_cases h1 : c = ':'
    · rw [if_pos h1]
      obtain ⟨iha, ihb⟩ := ih hcs (nextPos pos c) "" none
      refine ⟨fun t ht => ?_, ?_⟩
      · simp only [List.append_assoc, List.mem_append] at ht
        rcases ht with ht | ht | ht
        · rw [lexFlush_type (t := t) ht]; simp
        · simp at ht; subst ht; simp
        · exact iha t ht
      · rw [tokenValueChars_append, tokenValueChars_append, ihb,
          tokenValueChars_lexFlush]
        simp [tokenValueChars, h1]
    · rw [if_neg h1]
      by_cases h2 : c = '|'
      · rw [if_pos h2]
        obtain ⟨iha, ihb⟩ := ih hcs (nextPos pos c) "" none
        refine ⟨fun t ht => ?_, ?_⟩
        · simp only [List.append_assoc, List.mem_append] at ht
          rcases ht with ht | ht | ht
          · rw [lexFlush_type (t := t) ht]; simp
          · simp at ht; subst ht; simp
          · exact iha t ht
        · rw [tokenValueChars_append, tokenValueChars_append, ihb,
            tokenValueChars_lexFlush]
          simp [tokenValueChars, h2]
      · rw [if_neg h2, if_neg hte]
        by_cases h3 : c = ' '
        · rw [if_pos h3]
          obtain ⟨iha, ihb⟩ := ih hcs (nextPos pos c) "" none
          refine ⟨fun t ht => ?_, ?_⟩
          · simp only [List.append_assoc, List.mem_append] at ht
            rcases ht with ht | ht | ht
            · rw [lexFlush_type (t := t) ht]; simp
            · simp at ht; subst ht; simp
            · exact iha t ht
          · rw [tokenValueChars_append, tokenValueChars_append, ihb,
              tokenValueChars_lexFlush]
            simp [tokenValueChars, h3]
        · rw [if_neg h3]
          obtain ⟨iha, ihb⟩ := ih hcs (nextPos pos c) (buffer.push c)
            (if buffer.length = 0 then some pos else bufStart)
          refine ⟨iha, ?_⟩
          rw [ihb]
          show (buffer.data ++ [c]) ++ rest = buffer.data ++ c :: rest
          simp

/-- The fuel budget always exceeds the token count. -/
theorem lt_parseFuel (n : Nat) : n < parseFuel n := by
  unfold parseFuel
  nlinarith

/-- The top-level token loop on a `TagStart`-free token list accumulates
every token value into the buffer and flushes once at the end. -/
theorem parseTopGo_noTagStart (cfg : PCfg) (ts te : String) :
    ∀ (tokens : List Token) (fuel : Nat), tokens.length < fuel →
      ∀ (stk : List Token) (eof : Bool) (pos : Position)
        (buffer : String) (acc : List Node),
        (∀ t ∈ tokens, t.type ≠ .tagStartT) →
        parseTopGo cfg ts te fuel ⟨tokens, stk, eof, pos⟩ buffer acc =
          .ok (if buffer.data ++ tokenValueChars tokens = [] then acc
               else pushTextNode acc ⟨buffer.data ++ tokenValueChars tokens⟩) := by
  intro tokens
  induction tokens with
  | nil =>
    intro fuel hf stk eof pos buffer acc _
    cases fuel with
    | zero => omega
    | succ f =>
      simp only [parseTopGo, tokenValueChars_nil, List.append_nil]
      by_cases hb : buffer.data = []
      · have hbl : ¬ buffer.length ≠ 0 := by
          have : buffer.data.length = 0 := by rw [hb]; rfl
          have h2 : buffer.length = buffer.data.length := rfl
          omega
        rw [if_neg hbl, if_pos hb]
      · have hbl : buffer.length ≠ 0 := by
          intro h0
          exact hb (strData_eq_nil buffer (by omega))
        rw [if_pos hbl, if_neg hb]
  | cons t rest ih =>
    intro fuel hf stk eof pos buffer acc hns
    cases fuel with
    | zero => simp at hf
    | succ f =>
      simp only [parseTopGo]
      rw [if_neg (hns t (List.mem_cons_self t rest))]
      rw [ih f (by simpa using hf) stk eof (t.position.getD pos)
        (buffer ++ t.value) acc (fun x hx => hns x (List.mem_cons_of_mem t hx))]
      have hdata : (buffer ++ t.value).data = buffer.data ++ t.value.data := rfl
      rw [tokenValueChars_cons, hdata]
      simp [List.append_assoc]

/-- Claim C5, counterexample: the law fails at the empty string — `parse("")`
returns the empty node list, not a one-element list holding an empty Text
node. -/
theorem c5_counterexample :
    Parser.parse {} "" = .ok [] ∧ Parser.parse {} "" ≠ .ok [.text ""] := by
  refine ⟨rfl, ?_⟩
  have h : Parser.parse {} "" = .ok ([] : List Node) := rfl
  rw [h]
  simp

/-- Claim C5, amended: for any string containing neither default delimiter
character, `Parser().parse(s)` returns `[{Text, value: s}]` when `s` is
nonempty — including strings with `:`, `|`, spaces, newlines or backslashes
— and the empty list when `s` is empty. -/
theorem c5_theorem (s : String) (hs : ∀ c ∈ s.data, c ≠ '\x7b' ∧ c ≠ '\x7d') :
    Parser.parse {} s = .ok (if s.data = [] then [] else [.text s]) := by
  obtain ⟨hns, hvals⟩ := lexGo_plain s.data hs ⟨1, 1, 0⟩ "" none
  show parseTopGo {} "\x7b" "\x7d" (parseFuel (lexTokens {} s).length)
      ⟨lexTokens {} s, [], false, ⟨1, 1, 0⟩⟩ "" [] = _
  rw [parseTopGo_noTagStart {} "\x7b" "\x7d" (lexTokens {} s) _
    (lt_parseFuel _) [] false ⟨1, 1, 0⟩ "" [] hns]
  have hv : tokenValueChars (lexTokens {} s) = s.data := by
    have : ("" : String).data ++ s.data = s.data := rfl
    rw [← this]
    exact hvals
  rw [hv]
  have hnil : ("" : String).data ++ s.data = s.data := rfl
  rw [hnil]
  by_cases hd : s.data = []
  · rw [if_pos hd, if_pos hd]
  · rw [if_neg hd, if_neg hd]
    show Except.ok (pushTextNode [] s) = _
    rfl

/-- Witness for `c5_theorem` at a nonempty delimiter-free string containing
a colon, a pipe, spaces, a newline and a backslash. -/
theorem c5_theorem_witness :
    Parser.parse {} "a:b|c d\ne\\f" = .ok [.text "a:b|c d\ne\\f"] := by
  have h := c5_theorem "a:b|c d\ne\\f" (by decide)
  simpa using h

/-! ## Claim C6: adjacent text nodes -/

/-- No two consecutive elements of the list are both text nodes. -/
def adjTextFree : List Node → Bool
  | [] => true
  | [_] => true
  | a :: b :: rest => (!(isTextNode a && isTextNode b)) && adjTextFree (b :: rest)

/-- The claim's full scope: adjacency freedom of the top-level list and,
recursively, of every argument node's `nodes` list. -/
def deepAdjTextFree : Nat → List Node → Bool
  | 0, _ => true
  | fuel + 1, nodes =>
    adjTextFree nodes &&
      nodes.all (fun n =>
        match n with
        | .funcN _ args _ =>
          args.all (fun a =>
            match a with
            | .argN ns _ => deepAdjTextFree fuel ns
            | _ => true)
        | .argN ns _ => deepAdjTextFree fuel ns
        | _ => true)

/-- Whether the head of the list is a text node. -/
def isTextHead : List Node → Bool
  | [] => false
  | a :: _ => isTextNode a

theorem pushTextNode_cons (a : Node) (rest : List Node) (hr : rest ≠ [])
    (v : String) :
    pushTextNode (a :: rest) v = a :: pushTextNode rest v := by
  obtain ⟨b, rs, rfl⟩ := List.exists_cons_of_ne_nil hr
  unfold pushTextNode
  rw [List.getLast?_cons_cons]
  cases hx : (b :: rs).getLast? with
  | none => rfl
  | some n =>
    cases n with
    | text lv =>
      rw [List.dropLast_cons₂]
      rfl
    | varN r vv => rfl
    | funcN nm ar vv => rfl
    | argN ns fv => rfl

theorem pushTextNode_ne_nil (l : List Node) (v : String) :
    pushTextNode l v ≠ [] := by
  unfold pushTextNode
  cases hx : l.getLast? with
  | none => simp
  | some n =>
    cases n with
    | text lv => simp
    | varN r vv => simp
    | funcN nm ar vv => simp
    | argN ns fv => simp

theorem isTextHead_push (l : List Node) (v : String) (hl : l ≠ []) :
    isTextHead (pushTextNode l v) = isTextHead l := by
  obtain ⟨a, rest, rfl⟩ := List.exists_cons_of_ne_nil hl
  cases rest with
  | nil =>
    cases a <;> rfl
  | cons b rs =>
    rw [pushTextNode_cons a (b :: rs) (by simp) v]
    rfl

theorem adjTextFree_cons (a : Node) (l : List Node) (hl : l ≠ [])
    (h1 : ¬(isTextNode a = true ∧ isTextHead l = true))
    (h2 : adjTextFree l = true) :
    adjTextFree (a :: l) = true := by
  obtain ⟨b, rs, rfl⟩ := List.exists_cons_of_ne_nil hl
  show ((!(isTextNode a && isTextNode b)) && adjTextFree (b :: rs)) = true
  simp only [isTextHead] at h1
  simp [h2]
  by_cases ha : isTextNode a = true
  · right
    by_cases hb : isTextNode b = true
    · exact absurd ⟨ha, hb⟩ h1
    · simpa using hb
  · left
    simpa using ha

theorem adjTextFree_tail (a : Node) (l : List Node)
    (h : adjTextFree (a :: l) = true) :
    adjTextFree l = true ∧ ¬(isTextNode a = true ∧ isTextHead l = true) := by
  cases l with
  | nil => exact ⟨rfl, by simp [isTextHead]⟩
  | cons b rs =>
    have h' : ((!(isTextNode a && isTextNode b)) && adjTextFree (b :: rs)) = true := h
    rw [Bool.and_eq_true] at h'
    refine ⟨h'.2, ?_⟩
    intro ⟨hta, htb⟩
    simp only [isTextHead] at htb
    rw [hta, htb] at h'
    simp at h'

theorem adjTextFree_push (v : String) :
    ∀ l, adjTextFree l = true → adjTextFree (pushTextNode l v) = true := by
  intro l
  induction l with
  | nil => intro _; rfl
  | cons a rest ih =>
    intro h
    cases rest with
    | nil =>
      cases a <;> rfl
    | cons b rs =>
      rw [pushTextNode_cons a (b :: rs) (by simp) v]
      obtain ⟨h2, h1⟩ := adjTextFree_tail a (b :: rs) h
      refine adjTextFree_cons a _ (pushTextNode_ne_nil _ _) ?_ (ih h2)
      rw [isTextHead_push (b :: rs) v (by simp)]
      exact h1

theorem adjTextFree_append_nonText (n : Node) (hn : isTextNode n = false) :
    ∀ l, adjTextFree l = true → adjTextFree (l ++ [n]) = true := by
  intro l
  induction l with
  | nil => intro _; cases n <;> rfl
  | cons a rest ih =>
    intro h
    obtain ⟨h2, h1⟩ := adjTextFree_tail a rest h
    show adjTextFree (a :: (rest ++ [n])) = true
    refine adjTextFree_cons a _ (by simp) ?_ (ih h2)
    intro ⟨hta, hth⟩
    cases rest with
    | nil =>
      simp only [List.nil_append, isTextHead] at hth
      rw [hth] at hn
      simp at hn
    | cons b rs =>
      exact h1 ⟨hta, hth⟩

/-- The top-level loop preserves adjacency freedom of the accumulated node
list: text is only ever added through `pushTextNode` (which merges into a
trailing text node) and every directly appended parsed tag is not a text
node. -/
theorem parseTopGo_adjTextFree (cfg : PCfg) (ts te : String) :
    ∀ (fuel : Nat) (st : PSt) (buffer : String) (acc : List Node),
      adjTextFree acc = true →
      ∀ l, parseTopGo cfg ts te fuel st buffer acc = .ok l →
        adjTextFree l = true := by
  intro fuel
  induction fuel with
  | zero =>
    intro st buffer acc _ l h
    exact absurd h (by simp [parseTopGo])
  | succ fuel ih =>
    intro st buffer acc hacc l h
    obtain ⟨toks, stk, eof, pos⟩ := st
    cases toks with
    | nil =>
      simp only [parseTopGo] at h
      simp only [Except.ok.injEq] at h
      subst h
      by_cases hb : buffer.length ≠ 0
      · rw [if_pos hb]
        exact adjTextFree_push buffer acc hacc
      · rw [if_neg hb]
        exact hacc
    | cons t rest =>
      simp only [parseTopGo] at h
      by_cases hts' : t.type = .tagStartT
      · rw [if_pos hts'] at h
        by_cases hesc : buffer.length ≠ 0 ∧ strLast? buffer = some '\\'
        · rw [if_pos hesc] at h
          exact ih _ _ _ hacc l h
        · rw [if_neg hesc] at h
          set acc' := if buffer.length ≠ 0 then pushTextNode acc buffer else acc
            with hacc'
          have hacc'free : adjTextFree acc' = true := by
            rw [hacc']
            by_cases hb : buffer.length ≠ 0
            · rw [if_pos hb]
              exact adjTextFree_push buffer acc hacc
            · rw [if_neg hb]
              exact hacc
          cases hpt : parseTagF cfg ts te fuel
              { tokens := rest, stack := stk, reachedEof := eof
                currentPosition := t.position.getD pos } with
          | error e =>
            rw [hpt] at h
            simp at h
          | ok r =>
            rw [hpt] at h
            obtain ⟨parsed, st'⟩ := r
            cases parsed with
            | text v =>
              exact ih _ _ _ (adjTextFree_push v acc' hacc'free) l h
            | varN raw value =>
              exact ih _ _ _
                (adjTextFree_append_nonText (.varN raw value) rfl acc' hacc'free) l h
            | funcN name args value =>
              exact ih _ _ _
                (adjTextFree_append_nonText (.funcN name args value) rfl acc' hacc'free) l h
            | argN ns fv =>
              exact ih _ _ _
                (adjTextFree_append_nonText (.argN ns fv) rfl acc' hacc'free) l h
      · rw [if_neg hts'] at h
        exact ih _ _ _ hacc l h

/-- Claim C6, counterexample: inside an argument node the parser appends a
degraded nested tag's Text node directly after a buffered Text node, so
`parse("{f:a{x y}}")` produces two consecutive `TextNode` siblings inside
the function's argument — refuting the claim's "at every depth" clause. -/
theorem c6_counterexample :
    Parser.parse {} "\x7bf:a\x7bx y\x7d\x7d" =
      .ok [.funcN "f" [.argN [.text "a", .text "\x7bxy"] none] none,
           .text "\x7d"] ∧
    deepAdjTextFree 4
      [.funcN "f" [.argN [.text "a", .text "\x7bxy"] none] none,
       .text "\x7d"] = false := by
  exact ⟨by rfl, by rfl⟩

/-- Claim C6, amended: the *top-level* node list of a parse result never
contains two consecutive `TextNode` siblings (`pushTextNode` always merges),
for every configuration and input; but the `nodes` lists inside
`ArgumentNode`s may (the argument scanner pushes nested degraded text
without merging). -/
theorem c6_theorem (cfg : PCfg) (s : String) (l : List Node)
    (h : Parser.parse cfg s = .ok l) : adjTextFree l = true := by
  exact parseTopGo_adjTextFree cfg _ _ _ _ "" [] rfl l h

/-- Witness for `c6_theorem`: a parse mixing text and a variable tag. -/
theorem c6_theorem_witness :
    adjTextFree [.text "a", .varN "x" none, .text " b"] = true := by
  exact c6_theorem {} "a\x7bx\x7d b"
    [.text "a", .varN "x" none, .text " b"] (by rfl)

/-! ## Claim C7: transformer traversal and `filterByType` -/

/-- List view of an optional node (`[n]` when kept, `[]` when removed). -/
def optNodeList : Option Node → List Node
  | some n => [n]
  | none => []

mutual

/-- The natural recursive filter the amended claim describes: the keep/remove
decision by type tag is applied to every list element at every depth —
Text/Variable/Function nodes everywhere, and Argument nodes when they appear
directly in a node list — while the Argument wrappers inside a Function
node's `args` are always rebuilt with filtered children, never removed. -/
def filterSpecL (types : List String) : Nat → List Node → List Node
  | 0, nodes => nodes
  | _ + 1, [] => []
  | fuel + 1, n :: rest =>
    optNodeList (filterSpecN types fuel n) ++ filterSpecL types fuel rest

/-- Per-node decision of the natural filter: filter the children, then keep
the rebuilt node exactly when its type tag is in the set. -/
def filterSpecN (types : List String) : Nat → Node → Option Node
  | 0, n => if types.contains n.typeName then some n else none
  | fuel + 1, n =>
    match n with
    | .text v => if types.contains "Text" then some (.text v) else none
    | .varN r vv => if types.contains "Variable" then some (.varN r vv) else none
    | .funcN nm args vv =>
      if types.contains "Function"
      then some (.funcN nm (filterSpecArgs types fuel args) vv) else none
    | .argN ns fv =>
      if types.contains "Argument"
      then some (.argN (filterSpecL types fuel ns) fv) else none

/-- The argument wrappers of a function node: each is rebuilt with its
filtered child list and kept unconditionally. -/
def filterSpecArgs (types : List String) : Nat → List Node → List Node
  | 0, args => args
  | _ + 1, [] => []
  | fuel + 1, a :: rest =>
    (match a with
     | .argN ns fv => .argN (filterSpecL types fuel ns) fv
     | other => other) :: filterSpecArgs types fuel rest

end

/-- A transformer making flattening and child-first order observable: text
nodes are replaced by two `"b"` text nodes (a list result, exercising the
flattening), and a function node is renamed to its first argument's first
text child — which shows the children were transformed before the function
node was offered. -/
def probeTransformer : Transformer :=
  createTransformer "probe" (fun n _ =>
    match n with
    | .text _ => .many [.text "b", .text "b"]
    | .funcN _ args v =>
      .one (.funcN
        (match args with
         | .argN (.text t :: _) _ :: _ => t
         | _ => "?") args v)
    | other => .one other)

/-- Claim C7, counterexample: `transform` never offers the `ArgumentNode`
wrappers inside a `FunctionNode`'s `args` to the transformer.  With
`filterByType("Function","Text")` — a set not containing `"Argument"` — the
transformer maps any argument node to removed, yet the transformed tree
still contains the argument wrapper untouched, so the keep/remove decision
is not applied at every depth. -/
theorem c7_counterexample :
    transform 99 [.funcN "f" [.argN [.text "a"] none] none]
      [filterByType ["Function", "Text"]] =
      [.funcN "f" [.argN [.text "a"] none] none] ∧
    (filterByType ["Function", "Text"]).transform (.argN [.text "a"] none)
      ⟨[], 0, 0, none⟩ = .removed := by
  exact ⟨rfl, rfl⟩

example :
    transform 99 [.funcN "f" [.argN [.text "a"] none] none] [probeTransformer] =
      [.funcN "b" [.argN [.text "b", .text "b"] none] none] := by rfl

/-- Core refinement: on any adequate fuels, the transformer walk with
`filterByType` computes exactly the natural recursive filter, independent of
the ancestor/depth/index bookkeeping. -/
theorem transformNodesF_filterByType (types : List String) :
    ∀ fuel : Nat,
      (∀ (fuel₂ : Nat) (anc : List Node) (d idx : Nat) (nodes : List Node),
        sizeOf nodes < fuel → sizeOf nodes < fuel₂ →
        transformNodesF (filterByType types) fuel nodes anc d idx =
          filterSpecL types fuel₂ nodes) ∧
      (∀ (fuel₂ : Nat) (anc : List Node) (d : Nat) (n : Node),
        sizeOf n < fuel → sizeOf n < fuel₂ →
        (if types.contains
            (transformChildrenF (filterByType types) fuel n anc d).typeName
         then [transformChildrenF (filterByType types) fuel n anc d] else []) =
          optNodeList (filterSpecN types fuel₂ n)) ∧
      (∀ (fuel₂ : Nat) (anc : List Node) (d : Nat) (args : List Node),
        sizeOf args < fuel → sizeOf args < fuel₂ →
        args.map (fun arg =>
          match arg with
          | .argN ns fv =>
            .argN (transformNodesF (filterByType types) fuel ns anc d 0) fv
          | other => other) = filterSpecArgs types fuel₂ args) := by
  intro fuel
  induction fuel with
  | zero =>
    refine ⟨?_, ?_, ?_⟩
    · intro fuel₂ anc d idx nodes h _
      omega
    · intro fuel₂ anc d n h _
      omega
    · intro fuel₂ anc d args h _
      omega
  | succ fuel ih =>
    obtain ⟨ihL, ihC, ihA⟩ := ih
    have hL : ∀ (fuel₂ : Nat) (anc : List Node) (d idx : Nat) (nodes : List Node),
        sizeOf nodes < fuel + 1 → sizeOf nodes < fuel₂ →
        transformNodesF (filterByType types) (fuel + 1) nodes anc d idx =
          filterSpecL types fuel₂ nodes := by
      intro fuel₂ anc d idx nodes h h₂
      cases fuel₂ with
      | zero => omega
      | succ g₂ =>
        cases nodes with
        | nil => rfl
        | cons n rest =>
          have hsz : sizeOf (n :: rest) = 1 + sizeOf n + sizeOf rest := by
            simp
          have hn : sizeOf n < fuel := by
            have h1 : (1 : Nat) ≤ sizeOf rest := by
              cases rest <;> simp <;> omega
            omega
          have hrest : sizeOf rest < fuel := by
            have h1 : (1 : Nat) ≤ sizeOf n := by
              cases n <;> simp <;> omega
            omega
          have hn₂ : sizeOf n < g₂ := by
            have h1 : (1 : Nat) ≤ sizeOf rest := by
              cases rest <;> simp <;> omega
            omega
          have hrest₂ : sizeOf rest < g₂ := by
            have h1 : (1 : Nat) ≤ sizeOf n := by
              cases n <;> simp <;> omega
            omega
          show (match (filterByType types).transform
                  (transformChildrenF (filterByType types) fuel n anc d)
                  ⟨anc, d, idx, anc.getLast?⟩ with
                | .removed => []
                | .many l => l
                | .one m => [m]) ++
              transformNodesF (filterByType types) fuel rest anc d (idx + 1) =
            optNodeList (filterSpecN types g₂ n) ++ filterSpecL types g₂ rest
          rw [ihL g₂ anc d (idx + 1) rest hrest hrest₂]
          have hC := ihC g₂ anc d n hn hn₂
          rw [← hC]
          show (match (if types.contains
              (transformChildrenF (filterByType types) fuel n anc d).typeName
            then TransformResult.one
              (transformChildrenF (filterByType types) fuel n anc d)
            else TransformResult.removed) with
                | .removed => []
                | .many l => l
                | .one m => [m]) ++ _ = _
          by_cases hk : types.contains
              (transformChildrenF (filterByType types) fuel n anc d).typeName = true
          · rw [if_pos hk, if_pos hk]
          · rw [if_neg hk, if_neg hk]
    have hA : ∀ (fuel₂ : Nat) (anc : List Node) (d : Nat) (args : List Node),
        sizeOf args < fuel + 1 → sizeOf args < fuel₂ →
        args.map (fun arg =>
          match arg with
          | .argN ns fv =>
            .argN (transformNodesF (filterByType types) (fuel + 1) ns anc d 0) fv
          | other => other) = filterSpecArgs types fuel₂ args := by
      intro fuel₂ anc d args
      induction args generalizing fuel₂ with
      | nil =>
        intro h h₂
        cases fuel₂ with
        | zero => omega
        | succ g₂ => rfl
      | cons a rest ihargs =>
        intro h h₂
        cases fuel₂ with
        | zero => omega
        | succ g₂ =>
          have ha : (1 : Nat) ≤ sizeOf a := by
            cases a <;> simp <;> omega
          have hr : (1 : Nat) ≤ sizeOf rest := by
            cases rest <;> simp <;> omega
          have hsz : sizeOf (a :: rest) = 1 + sizeOf a + sizeOf rest := by simp
          have hrest : sizeOf rest < fuel + 1 := by omega
          have hrest₂ : sizeOf rest < g₂ := by omega
          rw [List.map_cons, ihargs g₂ hrest hrest₂]
          cases a with
          | argN ns fv =>
            have hafv : sizeOf (Node.argN ns fv) = 1 + sizeOf ns + sizeOf fv := by
              simp
            have hfv : (1 : Nat) ≤ sizeOf fv := by
              cases fv <;> simp <;> omega
            have hns : sizeOf ns < fuel + 1 := by omega
            have hns₂ : sizeOf ns < g₂ := by omega
            show Node.argN (transformNodesF (filterByType types) (fuel + 1) ns
                anc d 0) fv :: filterSpecArgs types g₂ rest =
              Node.argN (filterSpecL types g₂ ns) fv ::
                filterSpecArgs types g₂ rest
            rw [hL g₂ anc d 0 ns hns hns₂]
          | text v => rfl
          | varN r vv => rfl
          | funcN nm ar vv => rfl
    have hC : ∀ (fuel₂ : Nat) (anc : List Node) (d : Nat) (n : Node),
        sizeOf n < fuel + 1 → sizeOf n < fuel₂ →
        (if types.contains
            (transformChildrenF (filterByType types) (fuel + 1) n anc d).typeName
         then [transformChildrenF (filterByType types) (fuel + 1) n anc d]
         else []) = optNodeList (filterSpecN types fuel₂ n) := by
      intro fuel₂ anc d n h h₂
      cases fuel₂ with
      | zero => omega
      | succ g₂ =>
        cases n with
        | text v =>
          show (if types.contains "Text" then [Node.text v] else []) =
            optNodeList (if types.contains "Text" then some (.text v) else none)
          by_cases hk : types.contains "Text" = true
          · rw [if_pos hk, if_pos hk]
            rfl
          · rw [if_neg hk, if_neg hk]
            rfl
        | varN r vv =>
          show (if types.contains "Variable" then [Node.varN r vv] else []) =
            optNodeList (if types.contains "Variable"
              then some (.varN r vv) else none)
          by_cases hk : types.contains "Variable" = true
          · rw [if_pos hk, if_pos hk]
            rfl
          · rw [if_neg hk, if_neg hk]
            rfl
        | funcN nm args vv =>
          have hargs : sizeOf args < fuel := by
            have : sizeOf (Node.funcN nm args vv) =
                1 + sizeOf nm + sizeOf args + sizeOf vv := by simp
            have hvv : (1 : Nat) ≤ sizeOf vv := by
              cases vv <;> simp <;> omega
            omega
          have hargs₂ : sizeOf args < g₂ := by
            have : sizeOf (Node.funcN nm args vv) =
                1 + sizeOf nm + sizeOf args + sizeOf vv := by simp
            have hvv : (1 : Nat) ≤ sizeOf vv := by
              cases vv <;> simp <;> omega
            omega
          have harg := ihA g₂ (anc ++ [Node.funcN nm args vv]) (d + 1)
            args hargs hargs₂
          show (if types.contains "Function"
              then [Node.funcN nm (args.map _) vv] else []) =
            optNodeList (if types.contains "Function"
              then some (.funcN nm (filterSpecArgs types g₂ args) vv) else none)
          rw [harg]
          by_cases hk : types.contains "Function" = true
          · rw [if_pos hk, if_pos hk]
            rfl
          · rw [if_neg hk, if_neg hk]
            rfl
        | argN ns fv =>
          have hns : sizeOf ns < fuel := by
            have : sizeOf (Node.argN ns fv) = 1 + sizeOf ns + sizeOf fv := by simp
            have hfv : (1 : Nat) ≤ sizeOf fv := by
              cases fv <;> simp <;> omega
            omega
          have hns₂ : sizeOf ns < g₂ := by
            have : sizeOf (Node.argN ns fv) = 1 + sizeOf ns + sizeOf fv := by simp
            have hfv : (1 : Nat) ≤ sizeOf fv := by
              cases fv <;> simp <;> omega
            omega
          have hnsres := ihL g₂ (anc ++ [Node.argN ns fv]) (d + 1) 0 ns hns hns₂
          show (if types.contains "Argument"
              then [Node.argN (transformNodesF (filterByType types) fuel ns
                (anc ++ [Node.argN ns fv]) (d + 1) 0) fv] else []) =
            optNodeList (if types.contains "Argument"
              then some (.argN (filterSpecL types g₂ ns) fv) else none)
          rw [hnsres]
          by_cases hk : types.contains "Argument" = true
          · rw [if_pos hk, if_pos hk]
            rfl
          · rw [if_neg hk, if_neg hk]
            rfl
    exact ⟨hL, hC, hA⟩

/-- Claim C7, amended: `transform(nodes, [t])` offers the transformer, with
children transformed first and per-node results flattened, every
Text/Variable/Function node at every depth and every Argument node standing
directly in a node list — but the `ArgumentNode` wrappers inside a
`FunctionNode`'s `args` are only rebuilt, never offered.  Consequently
`filterByType` equals the natural recursive filter that applies the type
decision uniformly at every depth except the argument wrappers, which it
never removes (first conjunct); the probe conjunct shows the child-first
order and flattening concretely. -/
theorem c7_theorem (types : List String) (nodes : List Node) (fuel fuel₂ : Nat)
    (h : sizeOf nodes < fuel) (h₂ : sizeOf nodes < fuel₂) :
    transform fuel nodes [filterByType types] = filterSpecL types fuel₂ nodes ∧
    transform 99 [.funcN "f" [.argN [.text "a"] none] none] [probeTransformer] =
      [.funcN "b" [.argN [.text "b", .text "b"] none] none] := by
  constructor
  · show transformNodesF (filterByType types) fuel nodes [] 0 0 = _
    exact (transformNodesF_filterByType types fuel).1 fuel₂ [] 0 0 nodes h h₂
  · rfl

/-- Witness for `c7_theorem` at a concrete two-node list and adequate
fuels. -/
theorem c7_theorem_witness :
    transform 3000 [.varN "x" none, .funcN "f" [.argN [.text "a"] none] none]
      [filterByType ["Function", "Text"]] =
      filterSpecL ["Function", "Text"] 4000
        [.varN "x" none, .funcN "f" [.argN [.text "a"] none] none] := by
  exact ( c7_theorem ["Function", "Text"]
    [.varN "x" none, .funcN "f" [.argN [.text "a"] none] none]
    3000 4000 (by decide) (by decide)).1

/-! ## Claim C10: in-place behaviour of `mergeAdjacentTextNodes` -/

/-- The `value` of a text node (`""` otherwise). -/
def nodeTextVal : Node → String
  | .text v => v
  | _ => ""

/-- Whether the node at input position `i` is a text node. -/
def isTextAt (nodes : List Node) (i : Nat) : Bool :=
  isTextNode (nodes.getD i (.varN "" none))

/-- Concatenation of the text values of the run of consecutive text nodes
starting at position `j`, scanning at most `c` positions. -/
def runConcatIdx (nodes : List Node) : Nat → Nat → String
  | _, 0 => ""
  | j, c + 1 =>
    if isTextAt nodes j = true
    then nodeTextVal (nodes.getD j (.text "")) ++ runConcatIdx nodes (j + 1) c
    else ""

/-- Position `j` starts a run of text nodes: it is a text node and either
first or preceded by a non-text node. -/
def runStartAt (nodes : List Node) (j : Nat) : Bool :=
  isTextAt nodes j && (decide (j = 0) || !isTextAt nodes (j - 1))

/-- Input positions whose node object ends up in the returned array: every
position except text nodes directly preceded by a text node. -/
def keptPred (nodes : List Node) (i : Nat) : Bool :=
  !(isTextAt nodes i && decide (0 < i) && isTextAt nodes (i - 1))

/-- The returned references, by input position, in order. -/
def keptIndices (nodes : List Node) : List Nat :=
  (List.range nodes.length).filter (keptPred nodes)

/-- Heap contents after the loop has processed positions `< k`: a run start
already reached holds the concatenation of its run's values seen so far;
every other cell still holds its original node. -/
def heapAt (nodes : List Node) (k j : Nat) : Node :=
  if runStartAt nodes j = true ∧ j < k
  then .text (runConcatIdx nodes j (k - j))
  else nodes.getD j (.text "")

theorem getD_map_range {α : Type} (f : Nat → α) (n k : Nat) (h : k < n) (d : α) :
    (((List.range n).map f).getD k d) = f k := by
  have hlen : k < ((List.range n).map f).length := by
    simp [h]
  rw [List.getD_eq_getElem _ _ hlen]
  simp

theorem list_eq_map_range_getD (nodes : List Node) :
    nodes = (List.range nodes.length).map
      (fun j => nodes.getD j (.text "")) := by
  refine List.ext_getElem (by simp) ?_
  intro i h1 h2
  simp [← List.getD_eq_getElem nodes (.text "") h1]

theorem filter_range_succ (p : Nat → Bool) (k : Nat) :
    (List.range (k + 1)).filter p =
      (List.range k).filter p ++ (if p k then [k] else []) := by
  rw [List.range_succ, List.filter_append]
  congr 1
  by_cases hp : p k = true
  · simp [hp]
  · simp [List.filter, hp]

theorem filtered_getLast?_succ (p : Nat → Bool) (k : Nat) :
    ((List.range (k + 1)).filter p).getLast? =
      if p k then some k else ((List.range k).filter p).getLast? := by
  rw [filter_range_succ]
  by_cases hp : p k = true
  · rw [if_pos hp, if_pos hp]
    exact List.getLast?_concat _
  · rw [if_neg hp, if_neg hp]
    simp

/-- Extending the scan over a fully-text stretch by one more text node
appends its value. -/
theorem runConcatIdx_succ_text (nodes : List Node) :
    ∀ (c j : Nat), (∀ m, j ≤ m → m < j + c → isTextAt nodes m = true) →
      isTextAt nodes (j + c) = true →
      runConcatIdx nodes j (c + 1) =
        runConcatIdx nodes j c ++ nodeTextVal (nodes.getD (j + c) (.text "")) := by
  intro c
  induction c with
  | zero =>
    intro j _ hctext
    show (if isTextAt nodes j = true then _ else "") = "" ++ _
    rw [if_pos (by simpa using hctext)]
    simp [runConcatIdx]
  | succ c ih =>
    intro j hall hctext
    have hj : isTextAt nodes j = true := hall j le_rfl (by omega)
    show (if isTextAt nodes j = true then _ else "") =
      (if isTextAt nodes j = true then _ else "") ++ _
    rw [if_pos hj, if_pos hj]
    have := ih (j + 1) (fun m hm1 hm2 => hall m (by omega) (by omega))
      (by have : j + 1 + c = j + (c + 1) := by omega
          rw [this]
          exact hctext)
    rw [this]
    have harith : j + 1 + c = j + (c + 1) := by omega
    rw [harith, String.append_assoc]

/-- Extending the scan past a non-text node changes nothing. -/
theorem runConcatIdx_succ_stop (nodes : List Node) :
    ∀ (c j : Nat), isTextAt nodes (j + c) = false →
      runConcatIdx nodes j (c + 1) = runConcatIdx nodes j c := by
  intro c
  induction c with
  | zero =>
    intro j hstop
    show (if isTextAt nodes j = true then _ else "") = ""
    rw [if_neg (by simp_all)]
  | succ c ih =>
    intro j hstop
    show (if isTextAt nodes j = true then _ else "") =
      (if isTextAt nodes j = true then _ else "")
    by_cases hj : isTextAt nodes j = true
    · rw [if_pos hj, if_pos hj]
      have := ih (j + 1)
        (by have : j + 1 + c = j + (c + 1) := by omega
            rw [this]
            exact hstop)
      rw [this]
    · rw [if_neg hj, if_neg hj]

/-- Extending the scan changes nothing when the stretch already contains a
non-text node. -/
theorem runConcatIdx_succ_inner (nodes : List Node) :
    ∀ (c j : Nat) (m : Nat), j ≤ m → m < j + c → isTextAt nodes m = false →
      runConcatIdx nodes j (c + 1) = runConcatIdx nodes j c := by
  intro c
  induction c with
  | zero =>
    intro j m h1 h2 _
    omega
  | succ c ih =>
    intro j m h1 h2 hm
    show (if isTextAt nodes j = true then _ else "") =
      (if isTextAt nodes j = true then _ else "")
    by_cases hj : isTextAt nodes j = true
    · rw [if_pos hj, if_pos hj]
      have hmj : m ≠ j := by
        intro he
        rw [he] at hm
        rw [hj] at hm
        simp at hm
      have := ih (j + 1) m (by omega) (by omega) hm
      rw [this]
    · rw [if_neg hj, if_neg hj]

/-- When the position before `k` holds a text node, the last reference
pushed so far is the start of the text run containing it. -/
theorem lastKept_run (nodes : List Node) :
    ∀ k, 1 ≤ k → isTextAt nodes (k - 1) = true →
      ∃ j0, ((List.range k).filter (keptPred nodes)).getLast? = some j0 ∧
        runStartAt nodes j0 = true ∧ j0 ≤ k - 1 ∧
        (∀ m, j0 ≤ m → m ≤ k - 1 → isTextAt nodes m = true) := by
  intro k
  induction k with
  | zero => intro h; omega
  | succ k ih =>
    intro _ htext
    have htext' : isTextAt nodes k = true := by simpa using htext
    rcases Nat.eq_zero_or_pos k with h0 | hpos
    · subst h0
      have hkp : keptPred nodes 0 = true := by
        simp [keptPred]
      refine ⟨0, ?_, ?_, le_rfl, ?_⟩
      · rw [filtered_getLast?_succ, if_pos hkp]
      · simp [runStartAt, htext']
      · intro m h1 h2
        have : m = 0 := by omega
        subst this
        exact htext'
    · by_cases hprev : isTextAt nodes (k - 1) = true
      · have hkp : keptPred nodes k = false := by
          simp [keptPred, htext', hprev]
          omega
        rw [filtered_getLast?_succ, if_neg (by rw [hkp]; simp)]
        obtain ⟨j0, hlast, hrs, hle, hall⟩ := ih hpos hprev
        refine ⟨j0, hlast, hrs, by omega, ?_⟩
        intro m h1 h2
        rcases Nat.lt_or_ge m (k - 1 + 1) with hm | hm
        · exact hall m h1 (by omega)
        · have : m = k := by omega
          subst this
          exact htext'
      · have hkp : keptPred nodes k = true := by
          simp [keptPred, hprev]
        rw [filtered_getLast?_succ, if_pos hkp]
        refine ⟨k, rfl, ?_, by omega, ?_⟩
        · simp [runStartAt, htext', hprev]
        · intro m h1 h2
          have : m = k := by omega
          subst this
          exact htext'

/-- When the position before `k` holds a non-text node, that very position
is the last reference pushed so far. -/
theorem lastKept_nonText (nodes : List Node) (k : Nat) (h1 : 1 ≤ k)
    (hprev : isTextAt nodes (k - 1) = false) :
    ((List.range k).filter (keptPred nodes)).getLast? = some (k - 1) := by
  cases k with
  | zero => omega
  | succ j =>
    have hj : isTextAt nodes j = false := by simpa using hprev
    have hkp : keptPred nodes j = true := by
      simp [keptPred, hj]
    rw [filtered_getLast?_succ, if_pos hkp]
    simp

theorem getD_default_eq (nodes : List Node) (i : Nat) (h : i < nodes.length)
    (d₁ d₂ : Node) : nodes.getD i d₁ = nodes.getD i d₂ := by
  rw [List.getD_eq_getElem _ _ h, List.getD_eq_getElem _ _ h]

theorem text_of_isTextAt (nodes : List Node) (i : Nat) (h : i < nodes.length)
    (ht : isTextAt nodes i = true) :
    nodes.getD i (.text "") = .text (nodeTextVal (nodes.getD i (.text ""))) := by
  have heq := getD_default_eq nodes i h (.text "") (.varN "" none)
  unfold isTextAt at ht
  rw [← heq] at ht
  cases hnode : nodes.getD i (.text "") with
  | text v => rfl
  | varN r vv => rw [hnode] at ht; simp [isTextNode] at ht
  | funcN nm ar vv => rw [hnode] at ht; simp [isTextNode] at ht
  | argN ns fv => rw [hnode] at ht; simp [isTextNode] at ht

theorem isTextNode_getD (nodes : List Node) (i : Nat) (h : i < nodes.length) :
    isTextNode (nodes.getD i (.text "")) = isTextAt nodes i := by
  unfold isTextAt
  rw [getD_default_eq nodes i h (.text "") (.varN "" none)]

theorem runConcatIdx_one (nodes : List Node) (k : Nat)
    (ht : isTextAt nodes k = true) :
    runConcatIdx nodes k 1 = nodeTextVal (nodes.getD k (.text "")) := by
  show (if isTextAt nodes k = true then
    nodeTextVal (nodes.getD k (.text "")) ++ runConcatIdx nodes (k + 1) 0
    else "") = _
  rw [if_pos ht]
  show nodeTextVal (nodes.getD k (.text "")) ++ "" = _
  exact String.append_empty _

/-- A push step leaves every heap cell's spec value unchanged: the only
position newly below the bound is `k` itself, and a run start there has so
far accumulated exactly its own value. -/
theorem heapAt_succ_kept (nodes : List Node) (k : Nat) (hk : k < nodes.length)
    (hkept : keptPred nodes k = true) :
    ∀ j, heapAt nodes (k + 1) j = heapAt nodes k j := by
  intro j
  unfold heapAt
  by_cases hrs : runStartAt nodes j = true ∧ j < k + 1
  · rcases Nat.lt_or_ge j k with hjk | hjk
    · rw [if_pos hrs, if_pos ⟨hrs.1, hjk⟩]
      have harith : k + 1 - j = (k - j) + 1 := by omega
      rw [harith]
      by_cases htk : isTextAt nodes k = true
      · -- kept and text: the previous position is not text
        have hprev : isTextAt nodes (k - 1) = false := by
          by_contra hcon
          have hcon' : isTextAt nodes (k - 1) = true := by
            simpa using hcon
          have hkpos : 0 < k := by omega
          simp [keptPred, htk, hcon', hkpos] at hkept
        have hm : j ≤ k - 1 ∧ k - 1 < j + (k - j) := by omega
        rw [runConcatIdx_succ_inner nodes (k - j) j (k - 1) hm.1 hm.2 hprev]
      · have htk' : isTextAt nodes (j + (k - j)) = false := by
          have : j + (k - j) = k := by omega
          rw [this]
          simpa using htk
        rw [runConcatIdx_succ_stop nodes (k - j) j htk']
    · have hjeq : j = k := by omega
      subst hjeq
      rw [if_pos hrs, if_neg (by omega)]
      have htj : isTextAt nodes j = true := by
        have h' := hrs.1
        unfold runStartAt at h'
        rw [Bool.and_eq_true] at h'
        exact h'.1
      have harith : j + 1 - j = 1 := by omega
      rw [harith, runConcatIdx_one nodes j htj]
      exact (text_of_isTextAt nodes j hk htj).symm
  · rw [if_neg hrs, if_neg (by
      intro hcon
      exact hrs ⟨hcon.1, by omega⟩)]

/-- A merge step writes the extended run concatenation at the run start and
leaves every other cell's spec value unchanged. -/
theorem heapAt_succ_merge (nodes : List Node) (k j0 : Nat)
    (hk : k < nodes.length) (hkpos : 1 ≤ k)
    (htk : isTextAt nodes k = true)
    (hrs : runStartAt nodes j0 = true) (hle : j0 ≤ k - 1)
    (hall : ∀ m, j0 ≤ m → m ≤ k - 1 → isTextAt nodes m = true) :
    ∀ i, i < nodes.length →
      (if j0 = i
       then Node.text (runConcatIdx nodes j0 (k - j0) ++
         nodeTextVal (nodes.getD k (.text "")))
       else heapAt nodes k i) = heapAt nodes (k + 1) i := by
  intro i hi
  by_cases hij : j0 = i
  · subst hij
    rw [if_pos rfl]
    unfold heapAt
    rw [if_pos ⟨hrs, by omega⟩]
    have harith : k + 1 - j0 = (k - j0) + 1 := by omega
    rw [harith]
    rw [runConcatIdx_succ_text nodes (k - j0) j0
      (fun m h1 h2 => hall m h1 (by omega))
      (by have : j0 + (k - j0) = k := by omega
          rw [this]
          exact htk)]
    have : j0 + (k - j0) = k := by omega
    rw [this]
  · rw [if_neg hij]
    unfold heapAt
    by_cases hcase : runStartAt nodes i = true ∧ i < k + 1
    · have hik : i < k := by
        rcases Nat.lt_or_ge i k with h | h
        · exact h
        · exfalso
          have hieq : i = k := by omega
          subst hieq
          have hprev : isTextAt nodes (i - 1) = true :=
            hall (i - 1) (by omega) (by omega)
          have h' := hcase.1
          unfold runStartAt at h'
          rw [Bool.and_eq_true] at h'
          have h2 := h'.2
          rw [Bool.or_eq_true] at h2
          rcases h2 with h2 | h2
          · simp at h2
            omega
          · rw [hprev] at h2
            simp at h2
      rw [if_pos ⟨hcase.1, hik⟩, if_pos hcase]
      have harith : k + 1 - i = (k - i) + 1 := by omega
      rw [harith]
      by_cases hinner : ∀ m, i ≤ m → m < k → isTextAt nodes m = true
      · exfalso
        rcases Nat.lt_or_ge i j0 with hlt | hge
        · have hj0pos : 1 ≤ j0 := by omega
          have htj0 : isTextAt nodes (j0 - 1) = true :=
            hinner (j0 - 1) (by omega) (by omega)
          have h' := hrs
          unfold runStartAt at h'
          rw [Bool.and_eq_true] at h'
          have h2 := h'.2
          rw [Bool.or_eq_true] at h2
          rcases h2 with h2 | h2
          · simp at h2
            omega
          · rw [htj0] at h2
            simp at h2
        · have hipos : 1 ≤ i := by omega
          have hti : isTextAt nodes (i - 1) = true :=
            hall (i - 1) (by omega) (by omega)
          have h' := hcase.1
          unfold runStartAt at h'
          rw [Bool.and_eq_true] at h'
          have h2 := h'.2
          rw [Bool.or_eq_true] at h2
          rcases h2 with h2 | h2
          · simp at h2
            omega
          · rw [hti] at h2
            simp at h2
      · push_neg at hinner
        obtain ⟨m, hm1, hm2, hm3⟩ := hinner
        have hm3' : isTextAt nodes m = false := by
          simpa using hm3
        rw [runConcatIdx_succ_inner nodes (k - i) i m hm1 (by omega) hm3']
    · rw [if_neg (by
        intro hcon
        exact hcase ⟨hcon.1, by omega⟩), if_neg hcase]

/-- Unfolded view of one loop iteration. -/
theorem mergeStep_eq (H : List Node) (R : List Nat) (k : Nat) :
    mergeStep (H, R) k =
      (match R.getLast? with
       | some j =>
         (match H.getD k (.text ""), H.getD j (.text "") with
          | .text v, .text lv => (H.set j (.text (lv ++ v)), R)
          | _, _ => (H, R ++ [k]))
       | none => (H, R ++ [k])) := rfl

/-- The iteration pushes the reference when the pair is not text/text. -/
theorem mergeStep_push (H : List Node) (R : List Nat) (k : Nat)
    (h : ∀ j, R.getLast? = some j →
      isTextNode (H.getD k (.text "")) = false ∨
      isTextNode (H.getD j (.text "")) = false) :
    mergeStep (H, R) k = (H, R ++ [k]) := by
  rw [mergeStep_eq]
  cases hl : R.getLast? with
  | none => rfl
  | some j =>
    have hj := h j hl
    show (match H.getD k (.text ""), H.getD j (.text "") with
          | .text v, .text lv => (H.set j (.text (lv ++ v)), R)
          | _, _ => (H, R ++ [k])) = (H, R ++ [k])
    cases h1 : H.getD k (.text "") <;> cases h2 : H.getD j (.text "") <;>
      first
      | rfl
      | (exfalso
         rcases hj with hj | hj
         · rw [h1] at hj
           simp [isTextNode] at hj
         · rw [h2] at hj
           simp [isTextNode] at hj)

/-- The iteration merges in place when both are text nodes. -/
theorem mergeStep_merge (H : List Node) (R : List Nat) (k j : Nat)
    (v lv : String) (hl : R.getLast? = some j)
    (h1 : H.getD k (.text "") = .text v) (h2 : H.getD j (.text "") = .text lv) :
    mergeStep (H, R) k = (H.set j (.text (lv ++ v)), R) := by
  rw [mergeStep_eq, hl]
  show (match H.getD k (.text ""), H.getD j (.text "") with
        | .text v, .text lv => (H.set j (.text (lv ++ v)), R)
        | _, _ => (H, R ++ [k])) = _
  rw [h1, h2]

/-- Loop invariant of `mergeAdjacentTextNodes`: after processing the first
`k` positions, the heap holds `heapAt nodes k` at every position and the
result array holds exactly the kept references among `0..k-1`, in order. -/
theorem mergeLoop_inv (nodes : List Node) :
    ∀ k, k ≤ nodes.length →
      (List.range k).foldl mergeStep (nodes, []) =
        ((List.range nodes.length).map (fun j => heapAt nodes k j),
         (List.range k).filter (keptPred nodes)) := by
  intro k
  induction k with
  | zero =>
    intro _
    simp only [List.range_zero, List.foldl_nil, List.filter_nil]
    rw [Prod.mk.injEq]
    refine ⟨?_, rfl⟩
    conv_lhs => rw [list_eq_map_range_getD nodes]
    refine List.map_congr_left ?_
    intro j _
    unfold heapAt
    rw [if_neg (fun hcon => by omega)]
  | succ k ih =>
    intro hk1
    have hk : k < nodes.length := by omega
    rw [List.range_succ, List.foldl_append, ih (by omega)]
    simp only [List.foldl_cons, List.foldl_nil]
    have hHk : ((List.range nodes.length).map
        (fun j => heapAt nodes k j)).getD k (.text "") =
        nodes.getD k (.text "") := by
      rw [getD_map_range _ _ _ hk]
      unfold heapAt
      rw [if_neg (fun hcon => by omega)]
    rcases Nat.eq_zero_or_pos k with hk0 | hkpos
    · subst hk0
      rw [mergeStep_push _ _ _ (by
        intro j hj
        simp at hj)]
      rw [Prod.mk.injEq]
      constructor
      · refine List.map_congr_left ?_
        intro j hj
        exact (heapAt_succ_kept nodes 0 hk (by simp [keptPred]) j).symm
      · simp [List.filter_append, keptPred]
    · by_cases htk : isTextAt nodes k = true
      · by_cases htprev : isTextAt nodes (k - 1) = true
        · -- merge case
          obtain ⟨j0, hlast, hrs, hle, hall⟩ := lastKept_run nodes k hkpos htprev
          have hj0n : j0 < nodes.length := by omega
          have htextk := text_of_isTextAt nodes k hk htk
          have hHj0 : ((List.range nodes.length).map
              (fun j => heapAt nodes k j)).getD j0 (.text "") =
              .text (runConcatIdx nodes j0 (k - j0)) := by
            rw [getD_map_range _ _ _ hj0n]
            unfold heapAt
            rw [if_pos ⟨hrs, by omega⟩]
          rw [mergeStep_merge _ _ k j0
            (nodeTextVal (nodes.getD k (.text "")))
            (runConcatIdx nodes j0 (k - j0)) hlast
            (by rw [hHk]; exact htextk) hHj0]
          rw [Prod.mk.injEq]
          constructor
          · refine List.ext_getElem (by simp) ?_
            intro i h1 h2
            have hin : i < nodes.length := by
              simpa using h2
            rw [List.getElem_set]
            simp only [List.getElem_map, List.getElem_range]
            exact heapAt_succ_merge nodes k j0 hk hkpos htk hrs hle hall i hin
          · have hkp : keptPred nodes k = false := by
              simp [keptPred, htk, htprev]
              omega
            simp [List.filter_append, hkp]
        · -- kept: text at k, non-text before it
          have htprev' : isTextAt nodes (k - 1) = false := by
            simpa using htprev
          have hlast := lastKept_nonText nodes k hkpos htprev'
          have hkp : keptPred nodes k = true := by
            simp [keptPred, htprev']
          rw [mergeStep_push _ _ _ (by
            intro j hj
            rw [hlast] at hj
            have hjeq : j = k - 1 := by
              simpa using hj.symm
            subst hjeq
            right
            have hk1n : k - 1 < nodes.length := by omega
            rw [getD_map_range _ _ _ hk1n]
            unfold heapAt
            rw [if_neg (by
              intro hcon
              have := hcon.1
              unfold runStartAt at this
              rw [Bool.and_eq_true] at this
              rw [this.1] at htprev'
              simp at htprev')]
            rw [isTextNode_getD nodes (k - 1) hk1n]
            exact htprev')]
          rw [Prod.mk.injEq]
          constructor
          · refine List.map_congr_left ?_
            intro j _
            exact (heapAt_succ_kept nodes k hk hkp j).symm
          · simp [List.filter_append, hkp]
      · -- kept: non-text at k
        have htk' : isTextAt nodes k = false := by simpa using htk
        have hkp : keptPred nodes k = true := by
          simp [keptPred, htk']
        rw [mergeStep_push _ _ _ (by
          intro j _
          left
          rw [hHk, isTextNode_getD nodes k hk]
          exact htk')]
        rw [Prod.mk.injEq]
        constructor
        · refine List.map_congr_left ?_
          intro j _
          exact (heapAt_succ_kept nodes k hk hkp j).symm
        · simp [List.filter_append, hkp]

/-- C10: `mergeAdjacentTextNodes(nodes)` mutates its input rather than
copying. In the heap model (heap cell = the node object at that input
position, references = positions of the objects the returned array holds):
the returned array holds exactly the kept positions — every position except
text nodes directly preceded by a text node, so each run of consecutive
text nodes is represented by its first node — and the final heap agrees
with the input at every position except run starts, whose node object has
had its value field updated in place to the concatenation of the whole
run's values. In particular the returned array contains the mutated
first-node object of each run, and every other returned object is the very
input object, unchanged. -/
theorem c10_theorem (nodes : List Node) :
    (mergeAdjacentTextNodes nodes).2 = keptIndices nodes ∧
    ∀ j, j < nodes.length →
      (mergeAdjacentTextNodes nodes).1.getD j (.text "") =
        (if runStartAt nodes j = true
         then .text (runConcatIdx nodes j (nodes.length - j))
         else nodes.getD j (.text "")) := by
  have h := mergeLoop_inv nodes nodes.length (le_refl _)
  unfold mergeAdjacentTextNodes keptIndices
  rw [h]
  refine ⟨rfl, ?_⟩
  intro j hj
  rw [getD_map_range _ _ _ hj]
  unfold heapAt
  by_cases hr : runStartAt nodes j = true
  · rw [if_pos ⟨hr, hj⟩, if_pos hr]
  · rw [if_neg (fun hc => hr hc.1), if_neg hr]

/-- Witness for C10 at the input `[Text "a", Text "b", Variable "x"]`:
position 0 is below the length, the returned references are the kept
positions `[0, 2]`, and the heap cell at the run start 0 was mutated to
the run concatenation `"ab"`. -/
theorem c10_theorem_witness :
    0 < ([.text "a", .text "b", .varN "x" none] : List Node).length ∧
    (mergeAdjacentTextNodes [.text "a", .text "b", .varN "x" none]).2 =
      keptIndices [.text "a", .text "b", .varN "x" none] ∧
    (mergeAdjacentTextNodes
        [.text "a", .text "b", .varN "x" none]).1.getD 0 (.text "") =
      (if runStartAt [.text "a", .text "b", .varN "x" none] 0 = true
       then .text (runConcatIdx [.text "a", .text "b", .varN "x" none] 0
         (([.text "a", .text "b", .varN "x" none] : List Node).length - 0))
       else ([.text "a", .text "b", .varN "x" none] : List Node).getD 0
         (.text "")) :=
  ⟨by decide,
   (c10_theorem [.text "a", .text "b", .varN "x" none]).1,
   (c10_theorem [.text "a", .text "b", .varN "x" none]).2 0 (by decide)⟩

end Tagparse
